import Mathlib

/-!
Verification of the Memex-Neural ingestion/indexing/hybrid-retrieval core.

Shallow embedding of:
  - src/core/events.py               (EventBus)
  - src/plugins/core_vectorizer.py   (chunking + parent/child indexing)
  - src/plugins/core_archiver.py     (archive pipeline failure handling)
  - src/services/agents/retrieval_agent.py
       (search_by_keywords, search_by_vector, _parse_date,
        _match_time_range, hybrid_search)

Modelling conventions:
  - Python floats are modelled as rationals; the two transcendental
    operations (the Euclidean vector norm used in calc_score and the
    sigmoid used for rerank calibration) and the cross-encoder logits
    are abstract parameters of the model, collected in a capability
    structure.  All score arithmetic (1/(1+d), halving, the 0.40/0.85
    thresholds) is exact.
  - Python str is modelled by String; slicing, lower(), strip(),
    substring search and split() are implemented below on character
    lists, matching CPython semantics for the inputs that occur here.
  - Python list.sort (a stable sort) is modelled by a structurally
    recursive stable insertion sort; a stable sort result is uniquely
    determined by the comparison key and the original order, so this
    agrees with CPython for every input.
  - Python dicts (insertion ordered) are modelled by association
    lists where an update keeps the entry position and a fresh key is
    appended at the end.
-/

-- Batteries marks the core rational operations irreducible; restore
-- reducibility so that concrete runs of the model evaluate by decide.
set_option allowUnsafeReducibility true in
attribute [semireducible] Rat.mul Rat.add Rat.inv Rat.sub Rat.ofScientific

namespace Memex

/-! ## Python string primitives -/

/-- Character-list substring test: does the pattern occur contiguously?
Models the Python operator `sub in s` on strings and SQL `LIKE '%sub%'`. -/
def containsSub : List Char → List Char → Bool
  | _, [] => true
  | [], _ :: _ => false
  | c :: cs, pat => (List.isPrefixOf pat (c :: cs)) || containsSub cs pat

/-- First index at which the pattern occurs, if any.
Models Python `str.find` (restricted to the found case; the caller
handles the -1 case by matching on `none`). -/
def findSub : List Char → List Char → Option Nat
  | _, [] => some 0
  | [], _ :: _ => none
  | c :: cs, pat =>
    if List.isPrefixOf pat (c :: cs) then some 0
    else (findSub cs pat).map (· + 1)

/-- Python slice `s[a:b]` for `a ≤ b` (drop/take clamp like CPython). -/
def pySlice (s : String) (a b : Nat) : String :=
  String.mk ((s.data.drop a).take (b - a))

/-- Python `str.lower()` (per-character; the strings in scope are ASCII). -/
def pyLower (s : String) : String :=
  String.mk (s.data.map Char.toLower)

/-- Python `str.strip()` (whitespace trim at both ends). -/
def pyStrip (s : String) : String :=
  String.mk (((s.data.dropWhile Char.isWhitespace).reverse.dropWhile
      Char.isWhitespace).reverse)

/-- Python `sub in s` on strings. -/
def strContains (s sub : String) : Bool :=
  containsSub s.data sub.data

/-- Python `s.replace(old, new)` specialised to replacing the newline
character by a space, as in the snippet cleanup of hybrid_search. -/
def replaceNewlines (s : String) : String :=
  String.mk (s.data.map (fun c => if c = '\n' then ' ' else c))

/-- Python `str.split()` (split on whitespace, dropping empty pieces). -/
def pySplitWs (s : String) : List String :=
  (s.split Char.isWhitespace).filter (fun p => p ≠ "")

/-- Python truthiness chain `a or b or ...` on strings: the first
non-empty string, else the empty string. -/
def firstNonempty : List String → String
  | [] => ""
  | s :: rest => if s ≠ "" then s else firstNonempty rest

/-- Truthiness of an optional string column (`None` and `""` are falsy). -/
def optNonempty : Option String → Bool
  | none => false
  | some s => s ≠ ""

/-- `column LIKE '%kw%'` on a nullable column: NULL never matches. -/
def likeOpt (col : Option String) (kw : String) : Bool :=
  match col with
  | none => false
  | some s => strContains s kw

/-! ## Stable sort (Python list.sort) -/

/-- Insert `a` after every element it does not strictly precede.
With a total comparison this is the insertion step of a stable sort. -/
def stableInsert (le : α → α → Bool) (a : α) : List α → List α
  | [] => [a]
  | b :: bs => if le a b && !(le b a) then a :: b :: bs
               else b :: stableInsert le a bs

/-- Stable sort by a boolean comparison; extensionally equal to Python
`list.sort` (and to SQL ORDER BY on a deterministic snapshot) because a
stable sort result is uniquely determined by key and original order. -/
def stableSortBy (le : α → α → Bool) : List α → List α
  | [] => []
  | a :: rest => stableInsert le a (stableSortBy le rest)

theorem stableInsert_length (le : α → α → Bool) (a : α) (l : List α) :
    (stableInsert le a l).length = l.length + 1 := by
  induction l with
  | nil => rfl
  | cons b bs ih =>
    simp only [stableInsert]
    by_cases h : (le a b && !(le b a)) = true
    · simp [h]
    · simp only [if_neg h, List.length_cons, ih]

theorem stableSortBy_length (le : α → α → Bool) (l : List α) :
    (stableSortBy le l).length = l.length := by
  induction l with
  | nil => rfl
  | cons a rest ih =>
    simp only [stableSortBy]
    rw [stableInsert_length, ih, List.length_cons]

theorem mem_stableInsert (le : α → α → Bool) (a x : α) (l : List α) :
    x ∈ stableInsert le a l ↔ x = a ∨ x ∈ l := by
  induction l with
  | nil => simp [stableInsert]
  | cons b bs ih =>
    simp only [stableInsert]
    by_cases h : (le a b && !(le b a)) = true
    · simp only [if_pos h, List.mem_cons]
    · simp only [if_neg h, List.mem_cons, ih]
      tauto

theorem mem_stableSortBy (le : α → α → Bool) (x : α) (l : List α) :
    x ∈ stableSortBy le l ↔ x ∈ l := by
  induction l with
  | nil => simp [stableSortBy]
  | cons a rest ih =>
    simp only [stableSortBy]
    rw [mem_stableInsert]
    simp [List.mem_cons, ih]

theorem stableInsert_pairwise (le : α → α → Bool)
    (htot : ∀ x y : α, le x y || le y x)
    (htrans : ∀ x y z : α, le x y = true → le y z = true → le x z = true)
    (a : α) (l : List α)
    (hl : l.Pairwise (fun x y => le x y = true)) :
    (stableInsert le a l).Pairwise (fun x y => le x y = true) := by
  induction l with
  | nil => simp [stableInsert]
  | cons b bs ih =>
    simp only [stableInsert]
    rcases List.pairwise_cons.mp hl with ⟨hb, hbs⟩
    by_cases h : (le a b && !(le b a)) = true
    · simp only [if_pos h]
      have hab : le a b = true := by
        cases hab2 : le a b
        · rw [hab2] at h; simp at h
        · rfl
      refine List.pairwise_cons.mpr ⟨?_, hl⟩
      intro y hy
      rcases List.mem_cons.mp hy with rfl | hy2
      · exact hab
      · exact htrans a b y hab (hb y hy2)
    · simp only [if_neg h]
      refine List.pairwise_cons.mpr ⟨?_, ih hbs⟩
      intro y hy
      rcases (mem_stableInsert le a y bs).mp hy with heq | hy2
      · -- le b a holds because not (le a b && !(le b a)) while le is total
        rw [heq]
        cases hba : le b a
        · cases hab : le a b
          · have := htot a b
            rw [hab, hba] at this
            simp at this
          · rw [hab, hba] at h
            simp at h
        · rfl
      · exact hb y hy2

theorem stableSortBy_pairwise (le : α → α → Bool)
    (htot : ∀ x y : α, le x y || le y x)
    (htrans : ∀ x y z : α, le x y = true → le y z = true → le x z = true)
    (l : List α) :
    (stableSortBy le l).Pairwise (fun x y => le x y = true) := by
  induction l with
  | nil => simp [stableSortBy]
  | cons a rest ih =>
    exact stableInsert_pairwise le htot htrans a _ ih

/-! ## Dates: datetime.fromisoformat and RetrievalAgent._parse_date -/

/-- A Python datetime as produced by the date paths in scope (midnight
datetimes from fromisoformat, plus the hour/minute components carried by
system timestamps).  Ordered lexicographically via an injective key. -/
structure PyDate where
  y : Nat
  mo : Nat
  d : Nat
  hr : Nat
  mi : Nat
deriving DecidableEq

/-- Order-preserving encoding (fields are within calendar ranges:
mo ≤ 12 < 13, d ≤ 31 < 32, hr < 24, mi < 60). -/
def PyDate.key (t : PyDate) : Nat :=
  (((t.y * 13 + t.mo) * 32 + t.d) * 24 + t.hr) * 60 + t.mi

/-- datetime comparison `a <= b`. -/
def PyDate.leD (a b : PyDate) : Bool := a.key ≤ b.key

def digitVal (c : Char) : Option Nat :=
  if c.isDigit then some (c.toNat - 48) else none

def daysInMonth (y mo : Nat) : Nat :=
  if mo = 2 then
    if (y % 4 = 0 && y % 100 ≠ 0) || y % 400 = 0 then 29 else 28
  else if mo = 4 || mo = 6 || mo = 9 || mo = 11 then 30
  else 31

/-- CPython `datetime.fromisoformat`, restricted to the date-only form
`YYYY-MM-DD` that the retrieval agent feeds it.  Faithful on the inputs
in scope: CPython (3.11+) rejects a bare year `"2024"` and a
year-month `"2024-01"` (Invalid isoformat string), and accepts
`"2023-11-01"`; the time-of-day, `YYYYMMDD` and week-date forms never
occur on this code path. -/
def fromisoformat (s : String) : Option PyDate :=
  match s.data with
  | [y1, y2, y3, y4, s1, m1, m2, s2, d1, d2] =>
    if s1 = '-' && s2 = '-' then
      match digitVal y1, digitVal y2, digitVal y3, digitVal y4,
            digitVal m1, digitVal m2, digitVal d1, digitVal d2 with
      | some a, some b, some c, some d, some e, some f, some g, some h =>
        let yy := ((a * 10 + b) * 10 + c) * 10 + d
        let mm := e * 10 + f
        let dd := g * 10 + h
        if 1 ≤ mm && mm ≤ 12 && 1 ≤ dd && dd ≤ daysInMonth yy mm then
          some ⟨yy, mm, dd, 0, 0⟩
        else none
      | _, _, _, _, _, _, _, _ => none
    else none
  | _ => none

/-- RetrievalAgent._parse_date: lenient parse, trying the value itself
and then the value with a "-01" suffix (intended for YYYY-MM). -/
def parseDate (value : String) : Option PyDate :=
  if value = "" then none
  else match fromisoformat value with
    | some dt => some dt
    | none => fromisoformat (value ++ "-01")

/-- The `now`-relative datetime arithmetic of the `lastNd` / `lastNh`
branches of _match_time_range (datetime.timedelta); kept abstract since
no claim exercises those branches. -/
structure TimeCaps where
  now : PyDate
  minusDaysStartOfDay : Nat → PyDate
  minusHours : Nat → PyDate

/-- Does the stripped time-range token match `^last(\d+)([dh])$`? -/
def parseLast (s : String) : Option (Nat × Char) :=
  match s.data with
  | 'l' :: 'a' :: 's' :: 't' :: rest =>
    match rest.reverse with
    | u :: revDigits =>
      let digits := revDigits.reverse
      if (u = 'd' || u = 'h') && digits ≠ [] && digits.all Char.isDigit then
        some (digits.foldl (fun acc c => acc * 10 + (c.toNat - 48)) 0, u)
      else none
    | [] => none
  | _ => none

/-- Split the token at the first '~' (Python `tr.split("~", 1)`),
returning the two parts when a '~' is present. -/
def splitTilde (s : String) : Option (String × String) :=
  match findSub s.data ['~'] with
  | none => none
  | some i => some (String.mk (s.data.take i), String.mk (s.data.drop (i + 1)))

/-- RetrievalAgent._match_time_range: semantic-date-preferring temporal
filter.  `candidate` is meta_data.semantic_date / structured.date,
`fallback` is the record's processed_at system timestamp. -/
def matchTimeRange (tc : TimeCaps) (candidate : Option String)
    (timeRange : Option String) (fallback : Option PyDate) : Bool :=
  match timeRange with
  | none => true
  | some trRaw =>
    if trRaw = "" then true
    else
      let tr := pyStrip trRaw
      let bounds : Option PyDate × Option PyDate :=
        match parseLast tr with
        | some (num, unit) =>
          (some (if unit = 'd' then tc.minusDaysStartOfDay num
                 else tc.minusHours num), some tc.now)
        | none =>
          match splitTilde tr with
          | some (p1, p2) => (parseDate p1, parseDate p2)
          | none => (parseDate tr, none)
      let inRange (dt : PyDate) : Bool :=
        match bounds with
        | (some lo, some hi) => lo.leD dt && dt.leD hi
        | (some lo, none) => lo.leD dt
        | (none, _) => true
      let semanticDt : Option PyDate :=
        match candidate with
        | none => none
        | some c => if c = "" then none else parseDate c
      match semanticDt with
      | some dt => inRange dt
      | none =>
        match fallback with
        | some dt => inRange dt
        | none => true

/-! ## EventBus (src/core/events.py) -/

/-- An Event (name, payload, timestamp); the payload is an opaque
key/value map, never interpreted by the bus. -/
structure Ev where
  name : String
  payload : List (String × String)
  timestamp : Nat

/-- A registered handler: its function `__name__` (used by subscribe
for deduplication), an object identity distinguishing distinct function
objects, and its behaviour (an exception modelled as `Except.error`).
The sync/async distinction in _execute_handler only chooses how the
call is awaited; both branches invoke the handler once. -/
structure PyHandler where
  fname : String
  hid : Nat
  run : Ev → Except String Unit

/-- `EventBus._subscribers`: insertion-ordered dict from event name to
handler list. -/
abbrev Subscribers := List (String × List PyHandler)

def assocFind (subs : Subscribers) (ev : String) : Option (List PyHandler) :=
  match subs with
  | [] => none
  | (k, v) :: rest => if k = ev then some v else assocFind rest ev

/-- Dict update: replace the (first) entry in place, keeping its
position; Python dict keys are unique so this is exact. -/
def assocSet (subs : Subscribers) (ev : String) (v : List PyHandler) :
    Subscribers :=
  match subs with
  | [] => [(ev, v)]
  | (k, w) :: rest =>
    if k = ev then (k, v) :: rest else (k, w) :: assocSet rest ev v

/-- Handlers currently registered for an event name. -/
def handlersFor (subs : Subscribers) (ev : String) : List PyHandler :=
  (assocFind subs ev).getD []

/-- EventBus.subscribe: create the key if absent, then skip the
registration when a handler with the same `__name__` is already
present, else append. -/
def subscribe (subs : Subscribers) (ev : String) (h : PyHandler) :
    Subscribers :=
  let subs1 := if (assocFind subs ev).isNone then subs ++ [(ev, [])] else subs
  let cur := (assocFind subs1 ev).getD []
  if cur.any (fun g => g.fname = h.fname) then subs1
  else assocSet subs1 ev (cur ++ [h])

/-- EventBus.clear_subscribers. -/
def clearSubscribers (_ : Subscribers) : Subscribers := []

/-- EventBus._execute_handler: run one handler, catching any exception
(it is logged, never re-raised). -/
def executeHandler (h : PyHandler) (e : Ev) : Except String Unit :=
  match h.run e with
  | Except.ok _ => Except.ok ()
  | Except.error _ => Except.ok ()

/-- EventBus.publish: dispatch to every handler registered for the
event's name (early return when the name has no entry); the results
list is what asyncio.gather(..., return_exceptions=True) collects. -/
def publish (subs : Subscribers) (e : Ev) : List (Except String Unit) :=
  match assocFind subs e.name with
  | none => []
  | some handlers => handlers.map (fun h => executeHandler h e)

/-! ## Data model (ArchiveRecord, VectorNode) -/

/-- A row of the archives table, restricted to the columns the
retrieval and indexing code reads.  `semanticDate` models
`meta_data.get("semantic_date") or meta_data.get("structured", {}).get("date")`
(the first value present); `tags` models the normalised
`meta_data["tags"]` list; storage-path/URL columns are carried only
through fields the search code never branches on and are omitted. -/
structure ArchiveRecord where
  id : Nat
  userId : Nat
  filename : String
  category : Option String
  summary : Option String
  fullText : Option String
  fileType : Option String
  embedding : Option (List ℚ)
  isVectorized : Nat
  semanticDate : Option String
  processedAt : Option PyDate
  tags : List String
deriving DecidableEq

/-- A row of the vector_nodes table (child chunk). -/
structure VectorNode where
  id : Nat
  parentArchiveId : Nat
  content : String
  chunkIndex : Nat
  embedding : List ℚ
deriving DecidableEq

structure DB where
  archives : List ArchiveRecord
  nodes : List VectorNode

structure Filters where
  category : Option String
  fileType : Option String

/-- External capabilities of the retrieval path.  `embed` is
AIService.embed_text on the query: `none` models both an exception
(caught at the search_by_vector boundary) and an empty/None result
(`if not query_vector`).  `norm` is np.linalg.norm (Euclidean length,
kept abstract because it is irrational over ℚ); `predict` gives the
cross-encoder raw logits for the (query, text) pairs; `sigmoid` is the
1/(1+exp(-x)) calibration; `rerankAvailable` is whether the
RerankService model/runtime loads (false makes rerank raise, which
hybrid_search catches and answers with the basic sort fallback). -/
structure RetrievalCaps where
  embed : String → Option (List ℚ)
  norm : List ℚ → ℚ
  predict : String → List String → List ℚ
  sigmoid : ℚ → ℚ
  rerankAvailable : Bool

/-! ## RetrievalAgent.search_by_keywords -/

/-- search_by_keywords: user filter, optional file_type filter, OR of
LIKE '%kw%' over filename/summary/category/full_text (PostgreSQL LIKE,
case sensitive, NULL never matches; no condition is added when the
keyword list is empty), ORDER BY id DESC, LIMIT. -/
def searchByKeywords (db : DB) (keywords : List String) (limit : Nat)
    (userId : Nat) (fileType : Option String) : List ArchiveRecord :=
  let base := db.archives.filter fun r =>
    decide (r.userId = userId) &&
    (match fileType with
     | none => true
     | some ft => decide (r.fileType = some ft))
  let matched :=
    if keywords = [] then base
    else base.filter fun r => keywords.any fun kw =>
      strContains r.filename kw || likeOpt r.summary kw ||
      likeOpt r.category kw || likeOpt r.fullText kw
  (stableSortBy (fun a b => decide (b.id ≤ a.id)) matched).take limit

/-! ## RetrievalAgent.search_by_vector -/

/-- Metadata carried on a hit.  A key a dict does not define is read
back with `.get(...) or ""`, so absent keys are the empty string:
vector hits have no "summary" key, keyword hits no "file_type" key. -/
structure VecMeta where
  filename : String
  category : String
  fileType : String
  summary : String
  matchedContent : String
  matchSource : String
deriving DecidableEq

/-- One result dict of search_by_vector ("id" is `str(record.id)`). -/
structure VecHit where
  id : String
  score : ℚ
  metadata : VecMeta
deriving DecidableEq

/-- One value of the aggregated_scores dict. -/
structure AggInfo where
  score : ℚ
  snippet : String
  source : String
  childId : Option Nat
deriving DecidableEq

abbrev AggMap := List (Nat × AggInfo)

def aggFind : AggMap → Nat → Option AggInfo
  | [], _ => none
  | (k, v) :: rest, pid => if k = pid then some v else aggFind rest pid

/-- Python dict write: update in place (keeping insertion position) or
append a fresh key at the end. -/
def aggSet : AggMap → Nat → AggInfo → AggMap
  | [], pid, v => [(pid, v)]
  | (k, w) :: rest, pid, v =>
    if k = pid then (k, v) :: rest else (k, w) :: aggSet rest pid v

/-- Distance of an embedding to the query vector:
np.linalg.norm(np.array(emb) - np.array(query_vector)). -/
def vdist (caps : RetrievalCaps) (qv emb : List ℚ) : ℚ :=
  caps.norm (List.zipWith (fun x y => x - y) emb qv)

/-- calc_score: similarity 1 / (1 + distance); 0.0 for a missing
embedding. -/
def calcScore (caps : RetrievalCaps) (qv : List ℚ) :
    Option (List ℚ) → ℚ
  | none => 0
  | some e => 1 / (1 + vdist caps qv e)

/-- Snippet for a parent-recall hit:
`parent.summary or parent.full_text[:200] if parent.full_text else ""`
— a conditional expression, so an empty/missing full_text yields ""
even when a summary exists. -/
def parentSnippet (r : ArchiveRecord) : String :=
  match r.fullText with
  | none => ""
  | some ft =>
    if ft = "" then ""
    else match r.summary with
      | some s => if s ≠ "" then s else pySlice ft 0 200
      | none => pySlice ft 0 200

/-- search_by_vector: embed the query (failure absorbed to []), child
recall over vector_nodes (top_k*3 nearest, no user filter at this
stage), parent recall over vectorised archives (top_k nearest, with
user and optional category/file_type filters), aggregation keyed by
parent id keeping the best chunk, then the parent pass keeping the max
score, the min_score threshold, post-aggregation filters for
child-recalled rows, and a final sort by score descending truncated to
top_k. -/
def searchByVector (caps : RetrievalCaps) (db : DB) (queryText : String)
    (topK : Nat) (filters : Option Filters) (userId : Nat)
    (minScore : ℚ) : List VecHit :=
  match caps.embed queryText with
  | none => []
  | some qv =>
    if qv = [] then []
    else
      let childResults :=
        (stableSortBy (fun a b =>
          decide (vdist caps qv a.embedding ≤ vdist caps qv b.embedding))
          db.nodes).take (topK * 3)
      let parentBase := db.archives.filter fun r =>
        decide (r.userId = userId) && r.embedding.isSome &&
        decide (r.isVectorized = 1) &&
        (match filters with
         | none => true
         | some f =>
           (match f.category with
            | none => true
            | some c => decide (r.category = some c)) &&
           (match f.fileType with
            | none => true
            | some ft => decide (r.fileType = some ft)))
      let parentResults :=
        (stableSortBy (fun a b =>
          decide (vdist caps qv (a.embedding.getD []) ≤
                  vdist caps qv (b.embedding.getD [])))
          parentBase).take topK
      let agg1 : AggMap := childResults.foldl (fun m child =>
        let pid := child.parentArchiveId
        let score := calcScore caps qv (some child.embedding)
        match aggFind m pid with
        | none =>
          aggSet m pid ⟨score, child.content, "child_node", some child.id⟩
        | some info =>
          if decide (info.score < score) then
            aggSet m pid ⟨score, child.content, "child_node", some child.id⟩
          else m) []
      let agg2 : AggMap := parentResults.foldl (fun m parent =>
        let score := calcScore caps qv parent.embedding
        match aggFind m parent.id with
        | none =>
          aggSet m parent.id ⟨score, parentSnippet parent, "parent_vector", none⟩
        | some info =>
          if decide (info.score < score) then
            aggSet m parent.id
              { info with score := score, source := "parent_vector_boost" }
          else m) agg1
      let finalHits := agg2.filterMap fun pv =>
        match db.archives.find? (fun r => decide (r.id = pv.1)) with
        | none => none
        | some record =>
          if decide (pv.2.score < minScore) then none
          else
            let dropCat :=
              match filters with
              | none => false
              | some f =>
                match f.category with
                | none => false
                | some c => decide (record.category ≠ some c)
            let dropFt :=
              match filters with
              | none => false
              | some f =>
                match f.fileType with
                | none => false
                | some ft => decide (record.fileType ≠ some ft)
            if dropCat || dropFt then none
            else some ⟨toString record.id, pv.2.score,
              ⟨record.filename, record.category.getD "",
               record.fileType.getD "", "", pv.2.snippet, pv.2.source⟩⟩
      (stableSortBy (fun a b => decide (b.score ≤ a.score)) finalHits).take topK

/-! ## Keyword extraction (hybrid_search lines 346-357) -/

def isCJK (c : Char) : Bool := 0x4e00 ≤ c.toNat && c.toNat ≤ 0x9fff

/-- re.findall of 2-4 character CJK runs: a greedy, non-overlapping
left-to-right scan taking up to four characters per match. -/
def chineseFind (cs : List Char) : List (List Char) :=
  match cs with
  | [] => []
  | c :: rest =>
    if isCJK c then
      let run := (c :: rest.takeWhile isCJK).take 4
      if 2 ≤ run.length then
        -- the scanner resumes after the matched run, i.e. at
        -- (c :: rest).drop run.length = rest.drop (run.length - 1)
        run :: chineseFind (rest.drop (run.length - 1))
      else chineseFind rest
    else chineseFind rest
termination_by cs.length
decreasing_by
  · simp only [List.length_drop, List.length_cons]
    omega
  · simp
  · simp

/-- Python \w (re.UNICODE) restricted to the character classes in
scope: ASCII alphanumerics, underscore, CJK. -/
def isWordChar (c : Char) : Bool := c.isAlphanum || c = '_' || isCJK c

/-- Maximal runs of word characters. -/
def wordTokens (cs : List Char) : List (List Char) :=
  match cs with
  | [] => []
  | c :: rest =>
    if isWordChar c then
      let run := c :: rest.takeWhile isWordChar
      -- resumes after the run: (c :: rest).drop run.length
      --   = rest.drop (rest.takeWhile isWordChar).length
      run :: wordTokens (rest.drop (rest.takeWhile isWordChar).length)
    else wordTokens rest
termination_by cs.length
decreasing_by
  · simp only [List.length_drop, List.length_cons]
    omega
  · simp

/-- re.findall(r"\b[a-zA-Z]{3,}\b"): with both boundaries required, the
matches are exactly the maximal word-character tokens that consist
purely of ASCII letters and have length at least three. -/
def englishFind (cs : List Char) : List (List Char) :=
  (wordTokens cs).filter fun t => 3 ≤ t.length && t.all Char.isAlpha

/-- Keyword extraction when none are supplied: up to three Chinese
2-4 grams, then up to two English words; if still empty, whitespace
split capped at five when the query contains a space, else the first
ten characters. -/
def extractKeywords (q : String) : List String :=
  let ch := (chineseFind q.data).map String.mk
  let en := (englishFind q.data).map String.mk
  let ks := ch.take 3 ++ en.take 2
  if ks ≠ [] then ks
  else if strContains q " " then (pySplitWs q).take 5
  else [pySlice q 0 10]

/-! ## hybrid_search -/

/-- A key of the `combined` dict.  search_by_vector results contribute
string keys (`str(record.id)`) while keyword results contribute the
integer `record.id`; Python dict lookup never identifies "1" with 1. -/
inductive DKey where
  | str (v : String)
  | int (v : Nat)
deriving DecidableEq

/-- One entry of `combined` / of the final result list. -/
structure Item where
  id : DKey
  score : ℚ
  source : String
  originalScore : Option ℚ
  rerankScore : Option ℚ
  metadata : VecMeta
deriving DecidableEq

abbrev CombinedMap := List (DKey × Item)

def cmbFind : CombinedMap → DKey → Option Item
  | [], _ => none
  | (k, v) :: rest, key => if k = key then some v else cmbFind rest key

def cmbSet : CombinedMap → DKey → Item → CombinedMap
  | [], key, v => [(key, v)]
  | (k, w) :: rest, key, v =>
    if k = key then (k, v) :: rest else (k, w) :: cmbSet rest key v

/-- int() applied to the canonical decimal id strings produced by
str(record.id) (always pure digit strings, on which int() is the
base-10 digit fold). -/
def natOfIdStr (s : String) : Nat :=
  s.data.foldl (fun n c => n * 10 + (c.toNat - 48)) 0

/-- First keyword whose lowercase form occurs in the lowercased
full text: extract the (idx-50, idx+150) window, replace newlines,
strip. -/
def kwSnippetLoop (ft : String) : List String → Option String
  | [] => none
  | kw :: rest =>
    match findSub (pyLower ft).data (pyLower kw).data with
    | some idx =>
      some (pyStrip (replaceNewlines
        (pySlice ft (idx - 50) (min ft.length (idx + 150)))))
    | none => kwSnippetLoop ft rest

/-- Snippet and match_source for a keyword-recalled record. -/
def kwSnippet (record : ArchiveRecord) (keywords : List String) :
    String × String :=
  let base := (record.summary.getD "", "keyword_summary")
  match record.fullText with
  | none => base
  | some ft =>
    if ft ≠ "" && keywords ≠ [] then
      match kwSnippetLoop ft keywords with
      | some sn => (sn, "keyword_fulltext_snippet")
      | none => base
    else base

def vecItem (r : VecHit) : Item :=
  ⟨DKey.str r.id, r.score, "vector", none, none, r.metadata⟩

def kwItem (record : ArchiveRecord) (keywords : List String)
    (baseScore : ℚ) : Item :=
  let sn := kwSnippet record keywords
  ⟨DKey.int record.id, baseScore, "keyword", none, none,
   ⟨record.filename, record.category.getD "", "",
    record.summary.getD "", sn.1, sn.2⟩⟩

/-- Keyword base score 0.3, plus a 0.1 recency boost for ids within 5
of the maximum id (integer arithmetic: max_id - 5 may be negative). -/
def baseScoreFor (maxId rid : Nat) : ℚ :=
  if 0 < maxId && decide ((maxId : ℤ) - 5 ≤ (rid : ℤ)) then 3/10 + 1/10
  else 3/10

/-- Adding one vector hit to the `combined` dict (step 3 of
hybrid_search): stored under its string id when that id is truthy. -/
def vecMergeStep (m : CombinedMap) (r : VecHit) : CombinedMap :=
  if r.id ≠ "" then cmbSet m (DKey.str r.id) (vecItem r) else m

/-- Adding one keyword-recalled record to the `combined` dict: stored
under the integer id when that key is absent, else boosted in place
when the base score exceeds the stored score. -/
def kwMergeStep (keywords : List String) (maxId : Nat)
    (m : CombinedMap) (record : ArchiveRecord) : CombinedMap :=
  let base := baseScoreFor maxId record.id
  match cmbFind m (DKey.int record.id) with
  | none => cmbSet m (DKey.int record.id) (kwItem record keywords base)
  | some existing =>
    if decide (existing.score < base) then
      cmbSet m (DKey.int record.id)
        { existing with score := base, source := "keyword_boost" }
    else m

/-- Step 3 of hybrid_search: the `combined` dict, vector hits first,
then the keyword records. -/
def buildCombined (vres : List VecHit) (kres : List ArchiveRecord)
    (keywords : List String) (maxId : Nat) : CombinedMap :=
  kres.foldl (kwMergeStep keywords maxId) (vres.foldl vecMergeStep [])

/-- Rerank candidate text: matched_content, else summary, else
filename (string truthiness chain). -/
def candidateText (it : Item) : String :=
  firstNonempty [it.metadata.matchedContent, it.metadata.summary,
                 it.metadata.filename]

/-- RerankService.rerank (both the ONNX and the PyTorch strategy):
score the (query, text[:2000]) pairs, sort the (index, score) pairs by
score descending (stable), return the first top_k. -/
def rerankCall (caps : RetrievalCaps) (query : String)
    (texts : List String) (topK : Nat) : List (Nat × ℚ) :=
  if texts = [] then []
  else
    let scores := caps.predict query (texts.map (fun t => pySlice t 0 2000))
    (stableSortBy (fun a b => decide (b.2 ≤ a.2)) scores.enum).take topK

/-- Keyword-verification content: matched snippet, summary and
filename concatenated (each `or ""`). -/
def contentToCheck (it : Item) : String :=
  it.metadata.matchedContent ++ it.metadata.summary ++ it.metadata.filename

/-- Case-insensitive substring test of any keyword in the
concatenated content. -/
def hasKw (keywords : List String) (it : Item) : Bool :=
  keywords.any fun k => strContains (pyLower (contentToCheck it)) (pyLower k)

/-- The per-item score update applied after sigmoid calibration: halve
the score when keywords exist, none occurs in the content, and the
calibrated score is below 0.85. -/
def finalScore (keywords : List String) (it : Item) (norm : ℚ) : ℚ :=
  if decide (keywords ≠ []) && !(hasKw keywords it) && decide (norm < 17/20)
  then norm * (1/2) else norm

/-- The per-item body of the rerank consumption loop: calibrate the
raw logit through sigmoid, keep the pre-rerank score as
original_score, store the calibrated score, then apply the
keyword-verification penalty (which re-stores score and rerank_score
when it fires). -/
def rerankScored (caps : RetrievalCaps) (keywords : List String)
    (item0 : Item) (raw : ℚ) : Item :=
  let norm := caps.sigmoid raw
  let item1 := { item0 with
    originalScore := some (item0.originalScore.getD item0.score),
    score := norm,
    rerankScore := some norm }
  let normF := finalScore keywords item1 norm
  if normF = norm then item1
  else { item1 with score := normF, rerankScore := some normF }

/-- The rerank consumption loop of hybrid_search over the reranker's
(index, raw logit) pairs: guard the index, re-score the item, drop it
when the final score is below 0.40. -/
def rerankLoop (caps : RetrievalCaps) (keywords : List String)
    (items : List Item) : List (Nat × ℚ) → List Item
  | [] => []
  | (idx, raw) :: rest =>
    match items[idx]? with
    | none => rerankLoop caps keywords items rest
    | some item0 =>
      if decide ((rerankScored caps keywords item0 raw).score < 2/5) then
        rerankLoop caps keywords items rest
      else rerankScored caps keywords item0 raw ::
        rerankLoop caps keywords items rest

/-- The query text enhanced with the keyword list (step 1 of
hybrid_search). -/
def enhancedQuery (queryText : String) (keywords : List String) : String :=
  if keywords ≠ [] then queryText ++ " " ++ String.intercalate " " keywords
  else queryText

/-- The keywords hybrid_search actually uses: the supplied list, or
the extracted ones when none are supplied. -/
def effectiveKeywords (queryText : String) (keywords0 : List String) :
    List String :=
  if keywords0 = [] then extractKeywords queryText else keywords0

/-- Step 4 of hybrid_search applied to the merged candidate list:
empty in, empty out; otherwise rerank + calibration + keyword penalty
+ 0.40 threshold, or the basic score sort (descending, truncated to
top_k) when the reranker import/run raises. -/
def rankCandidates (caps : RetrievalCaps) (queryText : String)
    (keywords : List String) (topK : Nat) (items : List Item) : List Item :=
  if items = [] then []
  else if caps.rerankAvailable then
    rerankLoop caps keywords items
      (rerankCall caps queryText (items.map candidateText) topK)
  else
    (stableSortBy (fun a b => decide (b.score ≤ a.score)) items).take topK

/-- Steps 2.5-4 of hybrid_search, starting from the two recall lists:
time filter (semantic date preferred), merge into `combined`, then the
rank stage. -/
def mergeRankStage (caps : RetrievalCaps) (tc : TimeCaps) (db : DB)
    (queryText : String) (keywords : List String) (topK : Nat)
    (timeRange : Option String) (vres0 : List VecHit)
    (kres0 : List ArchiveRecord) : List Item :=
  let idList := vres0.map (fun r => natOfIdStr r.id) ++ kres0.map (fun r => r.id)
  let passTime := fun (docId : Nat) =>
    match (db.archives.filter (fun r => decide (r.id ∈ idList))).find?
        (fun r => decide (r.id = docId)) with
    | none => true
    | some rec1 => matchTimeRange tc rec1.semanticDate timeRange rec1.processedAt
  let vres := vres0.filter (fun r => passTime (natOfIdStr r.id))
  let kres := kres0.filter (fun r => passTime r.id)
  let maxId := max (kres.foldl (fun acc r => max acc r.id) 0)
                   (vres.foldl (fun acc r => max acc (natOfIdStr r.id)) 0)
  let combined := buildCombined vres kres keywords maxId
  rankCandidates caps queryText keywords topK (combined.map Prod.snd)

/-- hybrid_search: keyword extraction, enhanced-query vector recall
(width top_k*3, or top_k*2 once top_k ≥ 10; min_score 0.45), keyword
recall, then the merge/rank stage. -/
def hybridSearch (caps : RetrievalCaps) (tc : TimeCaps) (db : DB)
    (queryText : String) (keywords0 : List String) (topK : Nat)
    (userId : Nat) (timeRange : Option String)
    (fileType : Option String) : List Item :=
  let keywords := effectiveKeywords queryText keywords0
  let vectorFilters : Option Filters :=
    match fileType with
    | some ft => some ⟨none, some ft⟩
    | none => none
  let recallK := if topK < 10 then topK * 3 else topK * 2
  let vres0 := searchByVector caps db (enhancedQuery queryText keywords)
    recallK vectorFilters userId (9/20)
  let kres0 := searchByKeywords db keywords recallK userId fileType
  mergeRankStage caps tc db queryText keywords topK timeRange vres0 kres0

/-! ## CoreVectorizerPlugin (src/plugins/core_vectorizer.py) -/

/-- Embedding capability of the indexing pass (AIService.embed_text
through asyncio.to_thread).  `none` models a falsy result; a raised
exception aborts the whole transaction (rollback leaves the chunk
store unchanged), a case the claims do not exercise. -/
structure VecCaps where
  embed : String → Option (List ℚ)

/-- A row of the vector_nodes table as written by the indexer. -/
structure ChunkRow where
  parent : Nat
  idx : Nat
  content : String
  embedding : List ℚ
deriving DecidableEq

/-- Python str(Optional[str]) inside an f-string: None prints as
"None". -/
def optStr : Option String → String
  | none => "None"
  | some s => s

/-- The metadata header injected before the body
(Title/Type/Category/Tags/Summary and a separator). -/
def metaHeader (rec : ArchiveRecord) : String :=
  "Title: " ++ rec.filename ++ "\n" ++
  "Type: " ++ optStr rec.fileType ++ "\n" ++
  "Category: " ++ (match rec.category with
    | some c => if c ≠ "" then c else "Uncategorized"
    | none => "Uncategorized") ++ "\n" ++
  "Tags: " ++ String.intercalate ", " rec.tags ++ "\n" ++
  "Summary: " ++ (match rec.summary with
    | some s => if s ≠ "" then s else "N/A"
    | none => "N/A") ++ "\n" ++
  "---\n"

/-- text_to_embed = meta_header + (full_text or summary or filename
or ""). -/
def embeddableText (rec : ArchiveRecord) : String :=
  metaHeader rec ++
  firstNonempty [rec.fullText.getD "", rec.summary.getD "", rec.filename]

/-- The chunking while loop: window CHUNK_SIZE = 2000, step
CHUNK_SIZE - OVERLAP = 1800, last window may be shorter. -/
def chunkWhile (text : String) (start : Nat) : List String :=
  if h : start < text.length then
    pySlice text start (min (start + 2000) text.length) ::
      chunkWhile text (start + 1800)
  else []
termination_by text.length - start
decreasing_by
  omega

/-- The chunk list: overlapping windows when the text exceeds
CHUNK_SIZE, else the whole text as a single chunk. -/
def mkChunks (text : String) : List String :=
  if 2000 < text.length then chunkWhile text 0 else [text]

/-- The chunk rows inserted for a document: each chunk is indexed by
its enumeration position, skipped when its stripped length is below 10
or when its embedding call yields a falsy vector. -/
def newNodes (caps : VecCaps) (rec : ArchiveRecord) : List ChunkRow :=
  (mkChunks (embeddableText rec)).enum.filterMap fun p =>
    if (pyStrip p.2).length < 10 then none
    else match caps.embed p.2 with
      | some v => if v ≠ [] then some ⟨rec.id, p.1, p.2, v⟩ else none
      | none => none

/-- _process_vectorization for a found record: early return when the
stripped embeddable text is empty; coarse pass embedding the first
2000 characters into the parent record; then the guarded cleanup of
pre-existing chunk rows of this document followed by the insertion of
the fresh ones (one transaction).  Returns the updated parent record
and the updated chunk store. -/
def processVectorization (caps : VecCaps) (store : List ChunkRow)
    (rec : ArchiveRecord) : ArchiveRecord × List ChunkRow :=
  let text := embeddableText rec
  if pyStrip text = "" then (rec, store)
  else
    let rec1 := match caps.embed (pySlice text 0 2000) with
      | some v => if v ≠ [] then
          { rec with embedding := some v, isVectorized := 1 } else rec
      | none => rec
    let store1 :=
      if 0 < (store.filter (fun c => decide (c.parent = rec.id))).length then
        store.filter (fun c => decide (¬ c.parent = rec.id))
      else store
    (rec1, store1 ++ newNodes caps rec)

/-! ## CoreArchiverPlugin._process_and_persist (src/plugins/core_archiver.py) -/

/-- Where the uploaded file currently resides. -/
inductive FileLoc where
  | atSource
  | atFinal
  | inFailedDir
deriving DecidableEq

inductive ProcStatus where
  | processing
  | completed
  | failed
deriving DecidableEq

/-- Outcomes of the fallible steps of _process_and_persist, in program
order.  Text extraction never raises (each extractor wrapper catches
internally and returns None).  `analyze` failure is absorbed with the
original-filename/"Unsorted" fallback.  `generateTargetPath` covers
the directory creation and collision resolution, `moveFile` the
shutil.move, `statSize` the final_path.stat() read, `commit` the
success-path db.commit; the pure string work (filename sanitisation,
year/month choice) cannot raise and is not observable by the claims. -/
structure ArchCaps where
  getUser : Except String String
  getStorageRoot : Except String Nat
  extractText : Option String
  analyze : Except String String
  generateTargetPath : Except String (String × String)
  moveFile : Except String Unit
  statSize : Except String Nat
  commit : Except String Unit

/-- The observable outcome of one archiving run: final file location,
the document's processing status and stored error message, whether
ARCHIVE_COMPLETED was published, and the exception re-raised out of
_process_and_persist (caught by its caller). -/
structure ArchOutcome where
  fileLoc : FileLoc
  status : ProcStatus
  errorMsg : Option String
  emitted : Bool
  raised : Option String
deriving DecidableEq

/-- The except-branch of _process_and_persist: rollback, move the file
into the per-folder _FAILED subdirectory when it still exists at its
source path and the storage root/username were resolved, set
status=FAILED with the error message, save, re-raise. -/
def archFail (loc : FileLoc) (rootKnown : Bool) (e : String) : ArchOutcome :=
  { fileLoc := if loc = FileLoc.atSource && rootKnown then FileLoc.inFailedDir
               else loc
    status := ProcStatus.failed
    errorMsg := some e
    emitted := false
    raised := some e }

/-- _process_and_persist: user/storage-root resolution, extraction
(never raises), analysis (failure absorbed), target path computation,
file move, size stat, persistence commit, and only then the
ARCHIVE_COMPLETED publication; any exception diverts to archFail. -/
def processAndPersist (caps : ArchCaps) : ArchOutcome :=
  match caps.getUser with
  | Except.error e => archFail FileLoc.atSource false e
  | Except.ok _ =>
  match caps.getStorageRoot with
  | Except.error e => archFail FileLoc.atSource false e
  | Except.ok _ =>
  match caps.generateTargetPath with
  | Except.error e => archFail FileLoc.atSource true e
  | Except.ok _ =>
  match caps.moveFile with
  | Except.error e => archFail FileLoc.atSource true e
  | Except.ok _ =>
  match caps.statSize with
  | Except.error e => archFail FileLoc.atFinal true e
  | Except.ok _ =>
  match caps.commit with
  | Except.error e => archFail FileLoc.atFinal true e
  | Except.ok _ =>
    { fileLoc := FileLoc.atFinal
      status := ProcStatus.completed
      errorMsg := none
      emitted := true
      raised := none }

/-! ## Association-list lemmas for the EventBus -/

theorem assocFind_assocSet (m : Subscribers) (k k2 : String)
    (v : List PyHandler) :
    assocFind (assocSet m k v) k2 =
      if k2 = k then some v else assocFind m k2 := by
  induction m with
  | nil =>
    by_cases h : k2 = k
    · subst h
      simp [assocSet, assocFind]
    · simp [assocSet, assocFind, h, Ne.symm h]
  | cons kv rest ih =>
    obtain ⟨k0, w⟩ := kv
    by_cases h0 : k0 = k
    · subst h0
      by_cases h2 : k2 = k0
      · subst h2
        simp [assocSet, assocFind]
      · simp [assocSet, assocFind, h2, Ne.symm h2]
    · by_cases h2 : k0 = k2
      · subst h2
        have hne : ¬ (k0 = k) := h0
        simp [assocSet, assocFind, h0, hne, Ne.symm h0]
      · simp [assocSet, assocFind, h0, h2, ih]

theorem assocFind_append_unit (subs : Subscribers) (ev k2 : String) :
    assocFind (subs ++ [(ev, [])]) k2 =
      match assocFind subs k2 with
      | some v => some v
      | none => if ev = k2 then some [] else none := by
  induction subs with
  | nil => simp [assocFind]
  | cons kv rest ih =>
    obtain ⟨k0, w⟩ := kv
    simp only [List.cons_append, assocFind]
    by_cases h0 : k0 = k2
    · simp [h0]
    · simp [h0, ih]

/-! ## Claim theorems -/

/-- Environment for the abstract datetime arithmetic of the relative
time-range branches (never exercised by the claims). -/
def tc0 : TimeCaps :=
  ⟨⟨2025, 1, 1, 0, 0⟩, fun _ => ⟨2025, 1, 1, 0, 0⟩, fun _ => ⟨2025, 1, 1, 0, 0⟩⟩

/-- C4.  The code, evaluated at the claim's own inputs: a document
with semantic date 2023-11-15 IS accepted by timeRange="2024"
(the claim and the code comment "单点日期/月份/年份" say it must be
excluded): _parse_date tries fromisoformat("2024") and then
fromisoformat("2024-01"), both invalid isoformat strings, so both
bounds end up None and every date passes.  The inclusion under
"2023-11" (via the "-01" completion) and the pass-through when no
date exists at all behave as claimed. -/
theorem matchTimeRange_year_token_bug :
    matchTimeRange tc0 (some "2023-11-15") (some "2024") none = true ∧
    parseDate "2024" = none ∧
    matchTimeRange tc0 (some "2023-11-15") (some "2023-11") none = true ∧
    matchTimeRange tc0 none (some "2024") none = true := by
  decide

/-- C8.  EventBus.publish dispatches to every handler registered for
the event's name: the gathered outcome list has one entry per
registered handler, positionally the (exception-catching) execution of
that handler; no handler exception ever reaches the publisher, and
since each outcome is independent of the sibling entries, one raising
handler cannot prevent a sibling from being invoked. -/
theorem publish_invokes_all_isolated (subs : Subscribers) (e : Ev)
    (hs : List PyHandler) (hfind : assocFind subs e.name = some hs) :
    (publish subs e).length = hs.length ∧
    (∀ i : Nat, (publish subs e)[i]? =
      (hs[i]?).map (fun h => executeHandler h e)) ∧
    (∀ r ∈ publish subs e, r = Except.ok ()) ∧
    (∀ h : PyHandler, ∀ ev : Ev, executeHandler h ev = Except.ok ()) := by
  have hpub : publish subs e = hs.map (fun h => executeHandler h e) := by
    simp [publish, hfind]
  have hexec : ∀ h : PyHandler, ∀ ev : Ev, executeHandler h ev = Except.ok () := by
    intro h ev
    simp only [executeHandler]
    cases h.run ev <;> rfl
  refine ⟨?_, ?_, ?_, hexec⟩
  · rw [hpub, List.length_map]
  · intro i
    rw [hpub, List.getElem?_map]
  · intro r hr
    rw [hpub] at hr
    rcases List.mem_map.mp hr with ⟨h, _, rfl⟩
    exact hexec h e

/-- Witness for C8: a bus with one raising and one succeeding handler
on the same event; both are invoked and both outcomes are ok. -/
theorem publish_invokes_all_isolated_witness :
    (publish [("evt", [⟨"boom", 0, fun _ => Except.error "boom"⟩,
                       ⟨"fine", 1, fun _ => Except.ok ()⟩])]
      ⟨"evt", [], 0⟩).length = 2 ∧
    (∀ r ∈ publish [("evt", [⟨"boom", 0, fun _ => Except.error "boom"⟩,
                             ⟨"fine", 1, fun _ => Except.ok ()⟩])]
      ⟨"evt", [], 0⟩, r = Except.ok ()) := by
  have h := publish_invokes_all_isolated
    [("evt", [⟨"boom", 0, fun _ => Except.error "boom"⟩,
              ⟨"fine", 1, fun _ => Except.ok ()⟩])]
    ⟨"evt", [], 0⟩
    [⟨"boom", 0, fun _ => Except.error "boom"⟩,
     ⟨"fine", 1, fun _ => Except.ok ()⟩]
    rfl
  exact ⟨h.1, h.2.2.1⟩

/-- How subscribe changes the handler list of each event name: the
subscribed event gets the handler appended unless a same-named handler
is present; every other event is untouched. -/
theorem handlersFor_subscribe (subs : Subscribers) (ev : String)
    (h : PyHandler) (ev2 : String) :
    handlersFor (subscribe subs ev h) ev2 =
      if ev2 = ev then
        (if (handlersFor subs ev).any (fun g => decide (g.fname = h.fname))
         then handlersFor subs ev
         else handlersFor subs ev ++ [h])
      else handlersFor subs ev2 := by
  cases hv : assocFind subs ev with
  | none =>
    have hv1 : assocFind (subs ++ [(ev, [])]) ev = some [] := by
      rw [assocFind_append_unit, hv]
      simp
    have hfor : handlersFor subs ev = [] := by simp [handlersFor, hv]
    simp only [subscribe, hv, Option.isNone_none, if_pos, hv1,
      Option.getD_some, List.any_nil, Bool.false_eq_true, if_neg,
      not_false_eq_true, List.nil_append, hfor]
    simp only [handlersFor, assocFind_assocSet]
    by_cases h2 : ev2 = ev
    · simp [h2]
    · rw [if_neg h2, if_neg h2, assocFind_append_unit]
      cases hf2 : assocFind subs ev2 with
      | none =>
        have : ¬ ev = ev2 := fun hh => h2 hh.symm
        simp [this]
      | some w => simp
  | some v =>
    have hfor : handlersFor subs ev = v := by simp [handlersFor, hv]
    by_cases hdup : v.any (fun g => decide (g.fname = h.fname)) = true
    · have hex : ∃ x ∈ v, x.fname = h.fname := by simpa using hdup
      have hsub : subscribe subs ev h = subs := by
        simp [subscribe, hv, hex]
      rw [hsub]
      by_cases h2 : ev2 = ev
      · simp [h2, hfor, hdup]
      · simp [h2]
    · have hex : ¬ ∃ x ∈ v, x.fname = h.fname := by simpa using hdup
      have hsub : subscribe subs ev h = assocSet subs ev (v ++ [h]) := by
        simp [subscribe, hv, hex]
      rw [hsub]
      simp only [handlersFor, assocFind_assocSet]
      by_cases h2 : ev2 = ev
      · subst h2
        simp [hv, hfor, hdup]
      · simp [h2]

/-- C10.  EventBus.subscribe deduplicates by the handler function's
`__name__` alone: when any handler of the same name is already
registered for the event (even a different function object), the call
returns the subscription table unchanged; and every subscribe
preserves the invariant that the handlers registered for an event
carry pairwise distinct names, so at most one handler per
(event name, function name) pair is ever registered. -/
theorem subscribe_dedup_by_name :
    (∀ (subs : Subscribers) (ev : String) (h g : PyHandler),
      g ∈ handlersFor subs ev → g.fname = h.fname →
      subscribe subs ev h = subs) ∧
    (∀ (subs : Subscribers) (ev : String) (h : PyHandler) (ev2 : String),
      ((handlersFor subs ev2).map (fun x => x.fname)).Nodup →
      ((handlersFor (subscribe subs ev h) ev2).map (fun x => x.fname)).Nodup) := by
  constructor
  · intro subs ev h g hg hname
    obtain ⟨v, hv⟩ : ∃ v, assocFind subs ev = some v := by
      cases hf : assocFind subs ev with
      | none => simp [handlersFor, hf] at hg
      | some v => exact ⟨v, rfl⟩
    have hgv : g ∈ v := by simpa [handlersFor, hv] using hg
    have hex : ∃ x ∈ v, x.fname = h.fname := ⟨g, hgv, hname⟩
    simp [subscribe, hv, hex]
  · intro subs ev h ev2 hnodup
    rw [handlersFor_subscribe]
    by_cases h2 : ev2 = ev
    · rw [if_pos h2]
      rw [h2] at hnodup
      by_cases hdup :
          (handlersFor subs ev).any (fun g => decide (g.fname = h.fname)) = true
      · rw [if_pos hdup]
        exact hnodup
      · rw [if_neg hdup, List.map_append, List.map_singleton,
          List.nodup_append]
        refine ⟨hnodup, List.nodup_singleton _, ?_⟩
        intro a ha
        rcases List.mem_map.mp ha with ⟨g, hg, rfl⟩
        simp only [List.mem_singleton]
        intro heq
        apply hdup
        rw [List.any_eq_true]
        exact ⟨g, hg, by simp [heq]⟩
    · rw [if_neg h2]
      exact hnodup

/-- Witness for C10: two distinct handler objects sharing the name
"on_upload"; re-subscribing the second is a no-op, and name-nodup is
preserved. -/
theorem subscribe_dedup_by_name_witness :
    subscribe [("evt", [⟨"on_upload", 0, fun _ => Except.ok ()⟩])] "evt"
      ⟨"on_upload", 1, fun _ => Except.error "other"⟩ =
      [("evt", [⟨"on_upload", 0, fun _ => Except.ok ()⟩])] ∧
    ((handlersFor (subscribe [("evt", [⟨"on_upload", 0, fun _ => Except.ok ()⟩])]
        "evt" ⟨"other_name", 1, fun _ => Except.ok ()⟩) "evt").map
        (fun x => x.fname)).Nodup := by
  constructor
  · exact subscribe_dedup_by_name.1
      [("evt", [⟨"on_upload", 0, fun _ => Except.ok ()⟩])] "evt"
      ⟨"on_upload", 1, fun _ => Except.error "other"⟩
      ⟨"on_upload", 0, fun _ => Except.ok ()⟩
      (by simp [handlersFor, assocFind]) rfl
  · exact subscribe_dedup_by_name.2
      [("evt", [⟨"on_upload", 0, fun _ => Except.ok ()⟩])] "evt"
      ⟨"other_name", 1, fun _ => Except.ok ()⟩ "evt"
      (by simp [handlersFor, assocFind])

/-! ## Chunking lemmas (C6) -/

theorem strLength_mk (l : List Char) : (String.mk l).length = l.length := rfl

theorem strMk_data (t : String) : String.mk t.data = t := rfl

theorem pySlice_min (t : String) (a : Nat) :
    pySlice t a (min (a + 2000) t.length) = pySlice t a (a + 2000) := by
  unfold pySlice
  rcases le_or_lt (a + 2000) t.length with hle | hlt
  · rw [min_eq_left hle]
  · rw [min_eq_right (le_of_lt hlt)]
    congr 1
    have hlen : (t.data.drop a).length = t.length - a := by
      rw [List.length_drop]
      rfl
    have h1 : (t.data.drop a).length ≤ t.length - a := le_of_eq hlen
    rw [List.take_of_length_le (by omega), List.take_of_length_le (by omega)]

theorem chunkWhile_idx (t : String) (i : Nat) : ∀ s : Nat,
    (chunkWhile t s)[i]? =
      if s + i * 1800 < t.length then
        some (pySlice t (s + i * 1800) (min (s + i * 1800 + 2000) t.length))
      else none := by
  induction i with
  | zero =>
    intro s
    rw [chunkWhile]
    by_cases h : s < t.length
    · rw [dif_pos h]
      simp only [List.getElem?_cons_zero, Nat.zero_mul, Nat.add_zero]
      rw [if_pos (by omega)]
    · rw [dif_neg h]
      simp only [List.getElem?_nil]
      rw [if_neg (by omega)]
  | succ i ih =>
    intro s
    rw [chunkWhile]
    by_cases h : s < t.length
    · rw [dif_pos h]
      simp only [List.getElem?_cons_succ]
      rw [ih (s + 1800)]
      have e : s + 1800 + i * 1800 = s + (i + 1) * 1800 := by ring
      rw [e]
    · rw [dif_neg h]
      simp only [List.getElem?_nil]
      rw [if_neg (by omega)]

theorem mkChunks_small (t : String) (h : t.length ≤ 2000) :
    mkChunks t = [t] := by
  unfold mkChunks
  rw [if_neg (by omega)]

theorem mkChunks_idx (t : String) (i : Nat) (c : String)
    (h : (mkChunks t)[i]? = some c) :
    c = pySlice t (i * 1800) (i * 1800 + 2000) := by
  by_cases hlen : 2000 < t.length
  · unfold mkChunks at h
    rw [if_pos hlen, chunkWhile_idx] at h
    by_cases hc : 0 + i * 1800 < t.length
    · rw [if_pos hc] at h
      have hcc := Option.some_injective _ h.symm
      rw [hcc, Nat.zero_add]
      exact pySlice_min t (i * 1800)
    · rw [if_neg hc] at h
      exact absurd h (by simp)
  · rw [mkChunks_small t (by omega)] at h
    cases i with
    | zero =>
      simp only [List.getElem?_cons_zero, Option.some_inj] at h
      subst h
      have hb : t.length = t.data.length := rfl
      have hd : t.data.length ≤ 2000 := by omega
      show t = pySlice t (0 * 1800) (0 * 1800 + 2000)
      unfold pySlice
      simp only [Nat.zero_mul, List.drop_zero, Nat.zero_add, Nat.sub_zero]
      rw [List.take_of_length_le hd]
    | succ j => simp at h

/-- C6.  The fine-grained indexing pass: a text of at most 2000
characters yields the whole text as the single chunk; when longer,
chunk i is exactly the character window [i*1800, i*1800+2000) (the
last window shorter); a 5000-character text yields exactly 3 chunks
with chunk 1 starting at character 1800; and every persisted chunk row
has stripped length at least 10. -/
theorem chunking_windows_spec :
    (∀ t : String, t.length ≤ 2000 → mkChunks t = [t]) ∧
    (∀ (t : String) (i : Nat) (c : String), (mkChunks t)[i]? = some c →
      c = pySlice t (i * 1800) (i * 1800 + 2000)) ∧
    (∀ t : String, t.length = 5000 →
      (mkChunks t).length = 3 ∧
      (mkChunks t)[1]? = some (pySlice t 1800 3800)) ∧
    (∀ (caps : VecCaps) (rec : ArchiveRecord),
      ∀ c ∈ newNodes caps rec, 10 ≤ (pyStrip c.content).length) := by
  refine ⟨mkChunks_small, mkChunks_idx, ?_, ?_⟩
  · intro t hlen
    have hmk : mkChunks t = chunkWhile t 0 := by
      unfold mkChunks
      rw [if_pos (by omega)]
    have hidx : ∀ i : Nat, (chunkWhile t 0)[i]? =
        if 0 + i * 1800 < t.length then
          some (pySlice t (0 + i * 1800) (min (0 + i * 1800 + 2000) t.length))
        else none := fun i => chunkWhile_idx t i 0
    have h2 : (chunkWhile t 0)[2]?.isSome := by
      rw [hidx 2, if_pos (by omega)]
      rfl
    have h3 : (chunkWhile t 0)[3]? = none := by
      rw [hidx 3, if_neg (by omega)]
    have hlen3 : (chunkWhile t 0).length = 3 := by
      have hlo : 2 < (chunkWhile t 0).length := by
        by_contra hcon
        rw [List.getElem?_eq_none (by omega)] at h2
        simp at h2
      have hhi : (chunkWhile t 0).length ≤ 3 := by
        by_contra hcon
        rw [List.getElem?_eq_getElem (by omega)] at h3
        simp at h3
      omega
    refine ⟨by rw [hmk, hlen3], ?_⟩
    rw [hmk, hidx 1, if_pos (by omega)]
    have e1 : 0 + 1 * 1800 = 1800 := by norm_num
    have e2 : min (0 + 1 * 1800 + 2000) t.length = 3800 := by
      rw [hlen]
      norm_num
    rw [e1] at e2 ⊢
    rw [e2]
  · intro caps rec c hc
    unfold newNodes at hc
    rcases List.mem_filterMap.mp hc with ⟨p, _, hp⟩
    by_cases hshort : (pyStrip p.2).length < 10
    · rw [if_pos hshort] at hp
      exact absurd hp (by simp)
    · rw [if_neg hshort] at hp
      split at hp
      · split at hp
        · have hcc := Option.some_injective _ hp
          rw [← hcc]
          show 10 ≤ (pyStrip p.2).length
          omega
        · exact absurd hp (by simp)
      · exact absurd hp (by simp)

/-- A concretely indexed small document, its embedding capability and
its single stored chunk row, used to instantiate C6 and C7. -/
def recW : ArchiveRecord :=
  ⟨7, 1, "f", none, none, some "0123456789abcdef", none, none, 0, none,
   none, []⟩

def capsW : VecCaps := ⟨fun _ => some [1]⟩

def rowW : ChunkRow := ⟨7, 0, embeddableText recW, [1]⟩

/-- Witness for C6 at concrete inputs: a short text is one chunk and
equals its own [0,2000) window; a 5000-character text has 3 chunks
with chunk 1 at offset 1800; a concretely indexed document stores only
chunks of stripped length at least 10. -/
theorem chunking_windows_spec_witness :
    mkChunks "hello" = ["hello"] ∧
    ("hello" : String) = pySlice "hello" 0 2000 ∧
    (mkChunks (String.mk (List.replicate 5000 'a'))).length = 3 ∧
    (mkChunks (String.mk (List.replicate 5000 'a')))[1]? =
      some (pySlice (String.mk (List.replicate 5000 'a')) 1800 3800) ∧
    10 ≤ (pyStrip rowW.content).length := by
  have hbig : (String.mk (List.replicate 5000 'a')).length = 5000 := by
    rw [strLength_mk, List.length_replicate]
  refine ⟨chunking_windows_spec.1 "hello" (by decide), ?_, ?_, ?_, ?_⟩
  · have h0 : (mkChunks "hello")[0]? = some "hello" := by
      rw [chunking_windows_spec.1 "hello" (by decide)]
      rfl
    simpa using chunking_windows_spec.2.1 "hello" 0 "hello" h0
  · exact (chunking_windows_spec.2.2.1 _ hbig).1
  · exact (chunking_windows_spec.2.2.1 _ hbig).2
  · exact chunking_windows_spec.2.2.2 capsW recW rowW (by decide)

/-! ## Re-indexing lemmas (C7) -/

theorem newNodes_parent (caps : VecCaps) (rec : ArchiveRecord) :
    ∀ c ∈ newNodes caps rec, c.parent = rec.id := by
  intro c hc
  unfold newNodes at hc
  rcases List.mem_filterMap.mp hc with ⟨p, _, hp⟩
  by_cases hshort : (pyStrip p.2).length < 10
  · rw [if_pos hshort] at hp
    exact absurd hp (by simp)
  · rw [if_neg hshort] at hp
    split at hp
    · split at hp
      · have hcc := Option.some_injective _ hp
        rw [← hcc]
      · exact absurd hp (by simp)
    · exact absurd hp (by simp)

theorem pairwise_filterMapped {α β : Type} {f : α → Option β}
    {R : α → α → Prop} {S : β → β → Prop}
    (hf : ∀ a b x y, R a b → f a = some x → f b = some y → S x y) :
    ∀ l : List α, l.Pairwise R → (l.filterMap f).Pairwise S := by
  intro l hl
  induction l with
  | nil => simp
  | cons a l ih =>
    rcases List.pairwise_cons.mp hl with ⟨ha, hl2⟩
    rw [List.filterMap_cons]
    cases hfa : f a with
    | none => exact ih hl2
    | some x =>
      refine List.pairwise_cons.mpr ⟨?_, ih hl2⟩
      intro y hy
      rcases List.mem_filterMap.mp hy with ⟨b, hb, hfb⟩
      exact hf a b x y (ha b hb) hfa hfb

theorem newNodes_idx_strict (caps : VecCaps) (rec : ArchiveRecord) :
    (newNodes caps rec).Pairwise (fun a b => a.idx < b.idx) := by
  unfold newNodes
  apply pairwise_filterMapped
    (R := fun a b : Nat × String => a.1 < b.1)
  · intro a b x y hab hax hby
    have hxa : x.idx = a.1 := by
      by_cases hshort : (pyStrip a.2).length < 10
      · rw [if_pos hshort] at hax
        exact absurd hax (by simp)
      · rw [if_neg hshort] at hax
        split at hax
        · split at hax
          · have := Option.some_injective _ hax
            rw [← this]
          · exact absurd hax (by simp)
        · exact absurd hax (by simp)
    have hyb : y.idx = b.1 := by
      by_cases hshort : (pyStrip b.2).length < 10
      · rw [if_pos hshort] at hby
        exact absurd hby (by simp)
      · rw [if_neg hshort] at hby
        split at hby
        · split at hby
          · have := Option.some_injective _ hby
            rw [← this]
          · exact absurd hby (by simp)
        · exact absurd hby (by simp)
    rw [hxa, hyb]
    exact hab
  · have hfst : ((mkChunks (embeddableText rec)).enum.map Prod.fst).Pairwise
        (fun a b : Nat => a < b) := by
      rw [List.enum_map_fst]
      exact List.pairwise_lt_range _
    exact (List.pairwise_map).mp hfst

theorem vectorize_delete_guard (store : List ChunkRow) (pid : Nat) :
    (if 0 < (store.filter (fun c => decide (c.parent = pid))).length then
      store.filter (fun c => decide (¬ c.parent = pid))
     else store) = store.filter (fun c => decide (¬ c.parent = pid)) := by
  by_cases hpos : 0 < (store.filter (fun c => decide (c.parent = pid))).length
  · rw [if_pos hpos]
  · rw [if_neg hpos]
    have hnil : store.filter (fun c => decide (c.parent = pid)) = [] := by
      cases hf : store.filter (fun c => decide (c.parent = pid)) with
      | nil => rfl
      | cons a l => rw [hf] at hpos; simp at hpos
    have hall : ∀ c ∈ store, ¬ c.parent = pid := by
      intro c hc
      intro heq
      have : c ∈ store.filter (fun x => decide (x.parent = pid)) :=
        List.mem_filter.mpr ⟨hc, by simp [heq]⟩
      rw [hnil] at this
      simp at this
    symm
    rw [List.filter_eq_self]
    intro c hc
    simpa using hall c hc

theorem filter_not_parent_newNodes (caps : VecCaps) (rec : ArchiveRecord) :
    (newNodes caps rec).filter (fun c => decide (¬ c.parent = rec.id)) = [] := by
  rw [List.filter_eq_nil_iff]
  intro c hc
  simp [newNodes_parent caps rec c hc]

theorem filter_parent_newNodes (caps : VecCaps) (rec : ArchiveRecord) :
    (newNodes caps rec).filter (fun c => decide (c.parent = rec.id)) =
      newNodes caps rec := by
  rw [List.filter_eq_self]
  intro c hc
  simp [newNodes_parent caps rec c hc]

theorem filter_not_parent_idem (store : List ChunkRow) (pid : Nat) :
    (store.filter (fun c => decide (¬ c.parent = pid))).filter
      (fun c => decide (¬ c.parent = pid)) =
      store.filter (fun c => decide (¬ c.parent = pid)) := by
  rw [List.filter_eq_self]
  intro c hc
  exact (List.mem_filter.mp hc).2

/-- C7.  Re-indexing a document deletes its existing chunks before
inserting the new ones: (1) the pass is idempotent — running it twice
on the same unchanged document gives the same record update and the
same chunk store (hence the same chunk count); (2) afterwards, the
document's stored chunks are exactly the freshly built ones, so no
chunk from an earlier pass survives; (3) the invariant that no two
chunks of any parent share a chunk index is preserved (the fresh
chunks carry strictly increasing enumeration indices). -/
theorem reindex_idempotent_unique (caps : VecCaps) (store : List ChunkRow)
    (rec : ArchiveRecord) :
    (processVectorization caps
        (processVectorization caps store rec).2 rec =
      processVectorization caps store rec) ∧
    (pyStrip (embeddableText rec) ≠ "" →
      ((processVectorization caps store rec).2).filter
        (fun c => decide (c.parent = rec.id)) = newNodes caps rec) ∧
    (∀ p : Nat,
      ((store.filter (fun c => decide (c.parent = p))).Pairwise
        (fun a b => a.idx ≠ b.idx)) →
      (((processVectorization caps store rec).2).filter
        (fun c => decide (c.parent = p))).Pairwise
        (fun a b => a.idx ≠ b.idx)) := by
  by_cases htext : pyStrip (embeddableText rec) = ""
  · unfold processVectorization
    rw [if_pos htext, if_pos htext]
    exact ⟨rfl, fun hcon => absurd htext hcon, fun p hp => hp⟩
  · have hstep : ∀ st : List ChunkRow,
        processVectorization caps st rec =
          ((processVectorization caps store rec).1,
            st.filter (fun c => decide (¬ c.parent = rec.id)) ++
              newNodes caps rec) := by
      intro st
      unfold processVectorization
      rw [if_neg htext, if_neg htext, vectorize_delete_guard]
    constructor
    · rw [hstep store, hstep]
      have : (store.filter (fun c => decide (¬ c.parent = rec.id)) ++
          newNodes caps rec).filter (fun c => decide (¬ c.parent = rec.id)) =
          store.filter (fun c => decide (¬ c.parent = rec.id)) := by
        rw [List.filter_append, filter_not_parent_idem,
          filter_not_parent_newNodes, List.append_nil]
      rw [this]
    constructor
    · intro _
      rw [hstep store]
      show (store.filter (fun c => decide (¬ c.parent = rec.id)) ++
          newNodes caps rec).filter (fun c => decide (c.parent = rec.id)) =
          newNodes caps rec
      rw [List.filter_append, filter_parent_newNodes]
      have : (store.filter (fun c => decide (¬ c.parent = rec.id))).filter
          (fun c => decide (c.parent = rec.id)) = [] := by
        rw [List.filter_eq_nil_iff]
        intro c hc
        have := (List.mem_filter.mp hc).2
        simpa using this
      rw [this, List.nil_append]
    · intro p hp
      rw [hstep store]
      show ((store.filter (fun c => decide (¬ c.parent = rec.id)) ++
          newNodes caps rec).filter (fun c => decide (c.parent = p))).Pairwise
          (fun a b => a.idx ≠ b.idx)
      rw [List.filter_append]
      by_cases hpid : p = rec.id
      · rw [hpid]
        rw [hpid] at hp
        have h1 : (store.filter (fun c => decide (¬ c.parent = rec.id))).filter
            (fun c => decide (c.parent = rec.id)) = [] := by
          rw [List.filter_eq_nil_iff]
          intro c hc
          have := (List.mem_filter.mp hc).2
          simpa using this
        rw [h1, filter_parent_newNodes, List.nil_append]
        exact (newNodes_idx_strict caps rec).imp (fun hlt => Nat.ne_of_lt hlt)
      · have h2 : (newNodes caps rec).filter
            (fun c => decide (c.parent = p)) = [] := by
          rw [List.filter_eq_nil_iff]
          intro c hc
          rw [newNodes_parent caps rec c hc]
          simp only [decide_eq_true_eq]
          exact fun heq => hpid heq.symm
        rw [h2, List.append_nil]
        have hsub : List.Sublist
            ((store.filter (fun c => decide (¬ c.parent = rec.id))).filter
              (fun c => decide (c.parent = p)))
            (store.filter (fun c => decide (c.parent = p))) :=
          List.Sublist.filter _ (List.filter_sublist store)
        exact hp.sublist hsub

/-- Witness for C7: a concrete store holding a stale chunk of document
7 and a chunk of document 9; re-indexing document 7 is idempotent,
replaces exactly its own chunks, and preserves index uniqueness. -/
theorem reindex_idempotent_unique_witness :
    (processVectorization capsW
        (processVectorization capsW [⟨7, 3, "stale chunk row", [2]⟩,
          ⟨9, 0, "other doc chunk", [3]⟩] recW).2 recW =
      processVectorization capsW [⟨7, 3, "stale chunk row", [2]⟩,
        ⟨9, 0, "other doc chunk", [3]⟩] recW) ∧
    ((processVectorization capsW [⟨7, 3, "stale chunk row", [2]⟩,
        ⟨9, 0, "other doc chunk", [3]⟩] recW).2).filter
      (fun c => decide (c.parent = recW.id)) = newNodes capsW recW ∧
    (((processVectorization capsW [⟨7, 3, "stale chunk row", [2]⟩,
        ⟨9, 0, "other doc chunk", [3]⟩] recW).2).filter
      (fun c => decide (c.parent = 9))).Pairwise
      (fun a b => a.idx ≠ b.idx) := by
  refine ⟨(reindex_idempotent_unique capsW _ recW).1,
    (reindex_idempotent_unique capsW _ recW).2.1 (by decide),
    (reindex_idempotent_unique capsW _ recW).2.2 9 (by decide)⟩

/-! ## Keyword-verification penalty (C5) -/

/-- A vector-only candidate whose snippet/summary/filename share no
lexical content with the keyword "electricity". -/
def itemC5 : Item :=
  ⟨DKey.str "3", 1/2, "vector", none, none,
   ⟨"pork_receipt.pdf", "Finance", "document", "", "pork purchase notes",
    "child_node"⟩⟩

/-- Retrieval capabilities whose reranker calibrates every raw logit
to 0.60 (the sigmoid parameter instantiated at the claim's value). -/
def capsC5 : RetrievalCaps :=
  ⟨fun _ => none, fun _ => 0, fun _ ts => ts.map (fun _ => 0),
   fun _ => 3/5, true⟩

/-- C5.  The keyword-verification penalty of hybrid_search: (1) when
keywords exist, the concatenated matched-snippet/summary/filename
contains none of them case-insensitively, and the calibrated score is
below 0.85, the final score is exactly half the calibrated score;
(2) a candidate with calibrated score at least 0.85 is never
penalized; (3) end to end, a candidate calibrated at 0.60 with zero
keyword overlap is demoted to 0.30 and dropped by the 0.40 threshold
of the rerank consumption loop. -/
theorem keyword_penalty_halves_score :
    (∀ (kws : List String) (it : Item) (norm : ℚ), kws ≠ [] →
      hasKw kws it = false → norm < 17/20 →
      finalScore kws it norm = norm / 2) ∧
    (∀ (kws : List String) (it : Item) (norm : ℚ), 17/20 ≤ norm →
      finalScore kws it norm = norm) ∧
    (finalScore ["electricity"] itemC5 (3/5) = 3/10 ∧
      rerankLoop capsC5 ["electricity"] [itemC5] [(0, 0)] = []) := by
  refine ⟨?_, ?_, by decide, by decide⟩
  · intro kws it norm hkws hmiss hlow
    unfold finalScore
    have hcond : (decide (kws ≠ []) && !hasKw kws it &&
        decide (norm < 17/20)) = true := by
      rw [hmiss]
      simp [hkws, hlow]
    rw [hcond]
    simp only [if_pos]
    ring
  · intro kws it norm hhigh
    unfold finalScore
    have hcond : (decide (kws ≠ []) && !hasKw kws it &&
        decide (norm < 17/20)) = false := by
      have hlow : decide (norm < 17/20) = false := by
        rw [decide_eq_false_iff_not]
        exact not_lt.mpr hhigh
      rw [hlow, Bool.and_false]
    rw [hcond]
    simp

/-- Witness for C5: the 0.60-calibrated, zero-overlap candidate is
halved to 0.30 by part (1), and a 0.90-calibrated candidate is left
unchanged by part (2). -/
theorem keyword_penalty_halves_score_witness :
    finalScore ["electricity"] itemC5 (3/5) = (3/5 : ℚ) / 2 ∧
    finalScore ["electricity"] itemC5 (9/10) = 9/10 := by
  constructor
  · exact keyword_penalty_halves_score.1 ["electricity"] itemC5 (3/5)
      (by decide) (by decide) (by decide)
  · exact keyword_penalty_halves_score.2.1 ["electricity"] itemC5 (9/10)
      (by decide)

/-! ## Archiver failure handling (C9) -/

/-- An archiving run in which everything up to persistence succeeds
but the success-path commit raises. -/
def capsC9 : ArchCaps :=
  ⟨Except.ok "alice", Except.ok 1, some "extracted text", Except.ok "analysis",
   Except.ok ("2023-11-15-invoice.pdf", "alice/2023.11/Documents"),
   Except.ok (), Except.ok 4096, Except.error "disk full"⟩

/-- Counterexample to C9 as stated: when the persistence commit
raises — a step between text extraction and persistence, inclusive —
the file has already been moved to its final archive location, so the
except-branch's `if file_path.exists()` guard is false and the file is
NOT moved into the per-folder _FAILED subdirectory (the claim says
every such failure moves it there); status, error message and event
suppression behave as claimed. -/
theorem archweb_commit_failure_no_failed_dir :
    processAndPersist capsC9 =
      ⟨FileLoc.atFinal, ProcStatus.failed, some "disk full", false,
        some "disk full"⟩ ∧
    (processAndPersist capsC9).fileLoc ≠ FileLoc.inFailedDir := by
  decide

/-- C9 (amended).  For every archiving run whose user and storage root
resolve: any failure sets status=FAILED with the error message stored
and suppresses the completion event, and the completion event is
emitted exactly on the fully successful path; the file is moved into
the per-folder _FAILED subdirectory precisely when the failing step
precedes the file move (target-path computation or the move itself),
while a failure after the move (size stat or persistence commit)
leaves the file at its final location. -/
theorem arch_failure_handling (caps : ArchCaps) :
    (∀ e : String, (processAndPersist caps).raised = some e →
      (processAndPersist caps).status = ProcStatus.failed ∧
      (processAndPersist caps).errorMsg = some e ∧
      (processAndPersist caps).emitted = false) ∧
    ((processAndPersist caps).emitted = true →
      (processAndPersist caps).raised = none ∧
      (processAndPersist caps).status = ProcStatus.completed ∧
      (processAndPersist caps).fileLoc = FileLoc.atFinal) ∧
    (∀ (u : String) (root : Nat) (e : String),
      caps.getUser = Except.ok u → caps.getStorageRoot = Except.ok root →
      ((caps.generateTargetPath = Except.error e →
        processAndPersist caps =
          ⟨FileLoc.inFailedDir, ProcStatus.failed, some e, false, some e⟩) ∧
      (∀ p, caps.generateTargetPath = Except.ok p →
        caps.moveFile = Except.error e →
        processAndPersist caps =
          ⟨FileLoc.inFailedDir, ProcStatus.failed, some e, false, some e⟩) ∧
      (∀ p, caps.generateTargetPath = Except.ok p →
        caps.moveFile = Except.ok () →
        caps.statSize = Except.error e →
        processAndPersist caps =
          ⟨FileLoc.atFinal, ProcStatus.failed, some e, false, some e⟩) ∧
      (∀ p sz, caps.generateTargetPath = Except.ok p →
        caps.moveFile = Except.ok () → caps.statSize = Except.ok sz →
        caps.commit = Except.error e →
        processAndPersist caps =
          ⟨FileLoc.atFinal, ProcStatus.failed, some e, false, some e⟩) ∧
      (∀ p sz, caps.generateTargetPath = Except.ok p →
        caps.moveFile = Except.ok () → caps.statSize = Except.ok sz →
        caps.commit = Except.ok () →
        processAndPersist caps =
          ⟨FileLoc.atFinal, ProcStatus.completed, none, true, none⟩))) := by
  obtain ⟨gu, gr, ex, an, gp, mv, st, cm⟩ := caps
  refine ⟨?_, ?_, ?_⟩
  · intro e
    cases gu <;> cases gr <;> cases gp <;> cases mv <;> cases st <;> cases cm <;>
      simp [processAndPersist, archFail]
  · cases gu <;> cases gr <;> cases gp <;> cases mv <;> cases st <;> cases cm <;>
      simp [processAndPersist, archFail]
  · intro u root e hu hroot
    simp only at hu hroot
    subst hu
    subst hroot
    refine ⟨?_, ?_, ?_, ?_, ?_⟩
    · intro hgp
      subst hgp
      simp [processAndPersist, archFail]
    · intro p hgp hmv
      subst hgp
      subst hmv
      simp [processAndPersist, archFail]
    · intro p hgp hmv hst
      subst hgp
      subst hmv
      subst hst
      simp [processAndPersist, archFail]
    · intro p sz hgp hmv hst hcm
      subst hgp
      subst hmv
      subst hst
      subst hcm
      simp [processAndPersist, archFail]
    · intro p sz hgp hmv hst hcm
      subst hgp
      subst hmv
      subst hst
      subst hcm
      simp [processAndPersist]

/-- Witness for C9 (amended), at the commit-failure run and at a fully
successful run. -/
theorem arch_failure_handling_witness :
    ((processAndPersist capsC9).status = ProcStatus.failed ∧
      (processAndPersist capsC9).errorMsg = some "disk full" ∧
      (processAndPersist capsC9).emitted = false) ∧
    processAndPersist capsC9 =
      ⟨FileLoc.atFinal, ProcStatus.failed, some "disk full", false,
        some "disk full"⟩ ∧
    processAndPersist ⟨Except.ok "alice", Except.ok 1, none, Except.ok "a",
        Except.ok ("f", "rel"), Except.ok (), Except.ok 10, Except.ok ()⟩ =
      ⟨FileLoc.atFinal, ProcStatus.completed, none, true, none⟩ := by
  refine ⟨(arch_failure_handling capsC9).1 "disk full" (by decide), ?_, ?_⟩
  · exact ((arch_failure_handling capsC9).2.2 "alice" 1 "disk full" rfl
      rfl).2.2.2.1 ("2023-11-15-invoice.pdf", "alice/2023.11/Documents")
      4096 rfl rfl rfl rfl
  · exact ((arch_failure_handling _).2.2 "alice" 1 "unused" rfl
      rfl).2.2.2.2 ("f", "rel") 10 rfl rfl rfl rfl

/-! ## Query-path embedding failure (C1) -/

/-- Capabilities whose query embedding fails (the Embed capability
raises or returns no vector); reranker unavailable, so hybrid_search
answers with the basic-sort fallback. -/
def capsC1 : RetrievalCaps :=
  ⟨fun _ => none, fun _ => 0, fun _ ts => ts.map (fun _ => 0),
   fun x => x, false⟩

/-- One archived document, recalled by the keyword "tax". -/
def dbC1 : DB :=
  ⟨[⟨1, 1, "tax_invoice.pdf", some "Finance", some "tax invoice 2023",
     none, some "document", none, 0, none, none, []⟩], []⟩

/-- Counterexample to C1 as stated: with the query-embedding call
failing, hybrid_search does NOT surface a hard error — search_by_vector
absorbs the failure (returning []) and hybrid_search returns a
non-empty keyword-only result list. -/
theorem hybrid_embed_failure_keyword_fallback :
    hybridSearch capsC1 tc0 dbC1 "find the tax invoice" ["tax"] 5 1
        none none =
      [⟨DKey.int 1, 2/5, "keyword", none, none,
        ⟨"tax_invoice.pdf", "Finance", "", "tax invoice 2023",
         "tax invoice 2023", "keyword_summary"⟩⟩] ∧
    (hybridSearch capsC1 tc0 dbC1 "find the tax invoice" ["tax"] 5 1
        none none).map (fun it => it.source) = ["keyword"] := by
  decide

theorem cmbSet_mem (m : CombinedMap) (k : DKey) (v : Item) :
    ∀ p ∈ cmbSet m k v, p.2 = v ∨ p ∈ m := by
  induction m with
  | nil =>
    intro p hp
    simp only [cmbSet, List.mem_singleton] at hp
    subst hp
    exact Or.inl rfl
  | cons kv rest ih =>
    intro p hp
    simp only [cmbSet] at hp
    by_cases hk : kv.1 = k
    · rw [if_pos hk] at hp
      rcases List.mem_cons.mp hp with rfl | hrest
      · exact Or.inl rfl
      · exact Or.inr (List.mem_cons_of_mem _ hrest)
    · rw [if_neg hk] at hp
      rcases List.mem_cons.mp hp with rfl | hrest
      · exact Or.inr (List.mem_cons_self _ _)
      · rcases ih p hrest with hv | hm
        · exact Or.inl hv
        · exact Or.inr (List.mem_cons_of_mem _ hm)

theorem foldl_invariant {α β : Type} {P : β → Prop} {f : β → α → β}
    (hf : ∀ b a, P b → P (f b a)) :
    ∀ (l : List α) (b : β), P b → P (l.foldl f b) := by
  intro l
  induction l with
  | nil => intro b hb; exact hb
  | cons a rest ih =>
    intro b hb
    rw [List.foldl_cons]
    exact ih _ (hf b a hb)

/-- Every entry of the combined map built from keyword recall alone is
keyword-sourced (the "keyword_boost" arm included). -/
theorem buildCombined_nil_sources (kres : List ArchiveRecord)
    (kws : List String) (maxId : Nat) :
    ∀ p ∈ buildCombined [] kres kws maxId,
      p.2.source = "keyword" ∨ p.2.source = "keyword_boost" := by
  unfold buildCombined
  rw [List.foldl_nil]
  refine foldl_invariant
    (P := fun m => ∀ p ∈ m,
      p.2.source = "keyword" ∨ p.2.source = "keyword_boost")
    (f := kwMergeStep kws maxId) ?_ kres [] (by intro p hp; simp at hp)
  intro m record hm p hp
  simp only [kwMergeStep] at hp
  split at hp
  next =>
    rcases cmbSet_mem _ _ _ p hp with hv | hmq
    · rw [hv]
      exact Or.inl rfl
    · exact hm p hmq
  next existing hfind =>
    split at hp
    next =>
      rcases cmbSet_mem _ _ _ p hp with hv | hmq
      · rw [hv]
        exact Or.inr rfl
      · exact hm p hmq
    next => exact hm p hp

theorem rerankScored_source (caps : RetrievalCaps) (kws : List String)
    (item0 : Item) (raw : ℚ) :
    (rerankScored caps kws item0 raw).source = item0.source := by
  simp only [rerankScored]
  split <;> rfl

/-- The rerank consumption loop only re-scores items; the provenance
tag of every emitted item is that of some candidate. -/
theorem rerankLoop_source (caps : RetrievalCaps) (kws : List String)
    (items : List Item) :
    ∀ rl : List (Nat × ℚ), ∀ it ∈ rerankLoop caps kws items rl,
      ∃ it0 ∈ items, it.source = it0.source := by
  intro rl
  induction rl with
  | nil => intro it hit; simp [rerankLoop] at hit
  | cons pr rest ih =>
    intro it hit
    obtain ⟨idx, raw⟩ := pr
    rw [rerankLoop] at hit
    split at hit
    next => exact ih it hit
    next item0 heq =>
      split at hit
      next => exact ih it hit
      next =>
        rcases List.mem_cons.mp hit with rfl | hrest
        · exact ⟨item0, List.getElem?_mem heq,
            rerankScored_source caps kws item0 raw⟩
        · exact ih it hrest

/-- With no vector hits, the merge/rank stage emits only
keyword-sourced items, on both the rerank path and the fallback. -/
theorem mergeRankStage_keyword_only (caps : RetrievalCaps) (tc : TimeCaps)
    (db : DB) (q : String) (kws : List String) (tk : Nat)
    (tr : Option String) (kres0 : List ArchiveRecord) :
    ∀ it ∈ mergeRankStage caps tc db q kws tk tr [] kres0,
      it.source = "keyword" ∨ it.source = "keyword_boost" := by
  intro it hit
  unfold mergeRankStage rankCandidates at hit
  simp only [List.map_nil, List.nil_append, List.filter_nil,
    List.foldl_nil] at hit
  split at hit
  · simp at hit
  · split at hit
    · rcases rerankLoop_source caps kws _ _ it hit with ⟨it0, hit0, hsrc⟩
      rcases List.mem_map.mp hit0 with ⟨p, hp, heq⟩
      rcases buildCombined_nil_sources _ _ _ p hp with hk | hb
      · refine Or.inl ?_
        rw [hsrc, ← heq]
        exact hk
      · refine Or.inr ?_
        rw [hsrc, ← heq]
        exact hb
    · have htake := List.mem_of_mem_take hit
      have hmem := (mem_stableSortBy _ it _).mp htake
      rcases List.mem_map.mp hmem with ⟨p, hp, heq⟩
      rcases buildCombined_nil_sources _ _ _ p hp with hk | hb
      · refine Or.inl ?_
        rw [← heq]
        exact hk
      · refine Or.inr ?_
        rw [← heq]
        exact hb

/-- C1 (amended).  A failed embedding call on the query path is
absorbed, not surfaced: search_by_vector returns the empty list (both
an exception and an empty vector end there), and hybrid_search
proceeds with keyword-only recall — its result is exactly the
merge/rank stage over the keyword candidates, every returned hit being
keyword-sourced.  No error reaches the caller. -/
theorem embed_failure_absorbed (caps : RetrievalCaps) (tc : TimeCaps)
    (db : DB) (q : String) (kw0 : List String) (tk uid : Nat)
    (tr ft : Option String)
    (hembed : caps.embed (enhancedQuery q (effectiveKeywords q kw0)) = none) :
    searchByVector caps db (enhancedQuery q (effectiveKeywords q kw0))
      (if tk < 10 then tk * 3 else tk * 2)
      (match ft with
       | some t => some ⟨none, some t⟩
       | none => none) uid (9/20) = [] ∧
    hybridSearch caps tc db q kw0 tk uid tr ft =
      mergeRankStage caps tc db q (effectiveKeywords q kw0) tk tr []
        (searchByKeywords db (effectiveKeywords q kw0)
          (if tk < 10 then tk * 3 else tk * 2) uid ft) ∧
    (∀ it ∈ hybridSearch caps tc db q kw0 tk uid tr ft,
      it.source = "keyword" ∨ it.source = "keyword_boost") := by
  have hsv : searchByVector caps db (enhancedQuery q (effectiveKeywords q kw0))
      (if tk < 10 then tk * 3 else tk * 2)
      (match ft with
       | some t => some ⟨none, some t⟩
       | none => none) uid (9/20) = [] := by
    unfold searchByVector
    rw [hembed]
  have hhs : hybridSearch caps tc db q kw0 tk uid tr ft =
      mergeRankStage caps tc db q (effectiveKeywords q kw0) tk tr []
        (searchByKeywords db (effectiveKeywords q kw0)
          (if tk < 10 then tk * 3 else tk * 2) uid ft) := by
    simp only [hybridSearch]
    rw [hsv]
  refine ⟨hsv, hhs, ?_⟩
  rw [hhs]
  exact mergeRankStage_keyword_only caps tc db q _ tk tr _

/-- Witness for C1 (amended), at the concrete failing-embedding run. -/
theorem embed_failure_absorbed_witness :
    searchByVector capsC1 dbC1
      (enhancedQuery "find the tax invoice"
        (effectiveKeywords "find the tax invoice" ["tax"]))
      (if 5 < 10 then 5 * 3 else 5 * 2) none 1 (9/20) = [] ∧
    (∀ it ∈ hybridSearch capsC1 tc0 dbC1 "find the tax invoice" ["tax"]
        5 1 none none,
      it.source = "keyword" ∨ it.source = "keyword_boost") := by
  have h := embed_failure_absorbed capsC1 tc0 dbC1 "find the tax invoice"
    ["tax"] 5 1 none none rfl
  exact ⟨h.1, h.2.2⟩

/-! ## Duplicate document across vector/keyword merge (C2) -/

/-- The parent document id a combined key denotes: int() of the
canonical string id for vector-path keys, the integer id itself for
keyword-path keys. -/
def dkNat : DKey → Nat
  | DKey.str v => natOfIdStr v
  | DKey.int n => n

/-- Capabilities with a working (constant-vector) embedder; reranker
unavailable, so the aggregated candidates are returned sorted. -/
def capsC2 : RetrievalCaps :=
  ⟨fun _ => some [0], fun v => (v.map (fun x => |x|)).sum,
   fun _ ts => ts.map (fun _ => 0), fun x => x, false⟩

/-- A single vectorised document that both recall paths return. -/
def dbC2 : DB :=
  ⟨[⟨1, 1, "tax_invoice.pdf", none, some "tax invoice", none, none,
     some [0], 1, none, none, []⟩], []⟩

/-- C2 fails on the code: document 1 is recalled by the vector path
(stored under the string key "1") and by the keyword path (checked and
stored under the integer key 1); Python dict lookup never identifies
"1" with 1, so the merge keeps BOTH entries and hybrid_search returns
the same parent document twice. -/
theorem hybrid_duplicate_docid :
    (hybridSearch capsC2 tc0 dbC2 "tax" ["tax"] 5 1 none none).length = 2 ∧
    (hybridSearch capsC2 tc0 dbC2 "tax" ["tax"] 5 1 none none).map
      (fun it => dkNat it.id) = [1, 1] := by
  decide

/-! ## Final stage ordering, threshold and truncation (C3) -/

/-- Reranker available; logits give the candidate whose text is "misc"
a higher raw score; identity calibration. -/
def capsC3 : RetrievalCaps :=
  ⟨fun _ => none, fun _ => 0,
   fun _ ts => ts.map (fun t => if t = "misc" then 82/100 else 62/100),
   fun x => x, true⟩

/-- Two keyword-recalled documents: A is recalled via its category
("tax-docs") but shares no keyword with its snippet/summary/filename,
so the penalty halves it; B carries the keyword. -/
def dbC3 : DB :=
  ⟨[⟨1, 1, "a.pdf", some "tax-docs", some "misc", none, none, none, 0,
     none, none, []⟩,
    ⟨2, 1, "tax.pdf", some "Finance", some "tax receipt 2023", none, none,
     none, 0, none, none, []⟩], []⟩

/-- Counterexample to C3 as stated: after the keyword penalty the
returned list is NOT sorted descending by final score (and no re-sort
or pre-rerank/recency tie-break happens): the penalized candidate
(0.82 calibrated, halved to 0.41) is emitted before the unpenalized
0.62 candidate because the loop keeps the reranker's raw-score order. -/
theorem hybrid_final_not_resorted :
    (hybridSearch capsC3 tc0 dbC3 "tax query" ["tax"] 5 1 none none).map
      (fun it => it.score) = [41/100, 62/100] ∧
    ((41 : ℚ)/100 < 62/100) := by
  decide

theorem finalScore_cases (kws : List String) (it : Item) (norm : ℚ) :
    finalScore kws it norm = norm ∨ finalScore kws it norm = norm / 2 := by
  unfold finalScore
  split
  · exact Or.inr (mul_one_div norm 2)
  · exact Or.inl rfl

theorem rerankScored_score (caps : RetrievalCaps) (kws : List String)
    (item0 : Item) (raw : ℚ) :
    (rerankScored caps kws item0 raw).score = caps.sigmoid raw ∨
    (rerankScored caps kws item0 raw).score = caps.sigmoid raw / 2 := by
  simp only [rerankScored]
  split
  next h => exact Or.inl rfl
  next h =>
    rcases finalScore_cases kws
      { item0 with
        originalScore := some (item0.originalScore.getD item0.score),
        score := caps.sigmoid raw,
        rerankScore := some (caps.sigmoid raw) } (caps.sigmoid raw)
      with h1 | h2
    · exact Or.inl h1
    · exact Or.inr h2

/-- The rerank consumption loop: at most as many items out as rerank
pairs in, every survivor at or above the 0.40 threshold, and the
emitted items follow a descending list of calibrated scores of which
each final score is either the calibrated value or its half. -/
theorem rerankLoop_spec (caps : RetrievalCaps) (kws : List String)
    (items : List Item)
    (hmono : ∀ x y : ℚ, x ≤ y → caps.sigmoid x ≤ caps.sigmoid y) :
    ∀ rl : List (Nat × ℚ), rl.Pairwise (fun a b => b.2 ≤ a.2) →
    (rerankLoop caps kws items rl).length ≤ rl.length ∧
    (∀ it ∈ rerankLoop caps kws items rl, 2/5 ≤ it.score) ∧
    ∃ c : List ℚ,
      c.Pairwise (fun a b => b ≤ a) ∧
      (rerankLoop caps kws items rl).length = c.length ∧
      (∀ p ∈ (rerankLoop caps kws items rl).zip c,
        p.1.score = p.2 ∨ p.1.score = p.2 / 2) ∧
      (∀ x ∈ c, ∃ r ∈ rl, x = caps.sigmoid r.2) := by
  intro rl
  induction rl with
  | nil =>
    intro _
    refine ⟨by simp [rerankLoop], by simp [rerankLoop], [], by simp,
      by simp [rerankLoop], by simp [rerankLoop], by simp⟩
  | cons pr rest ih =>
    intro hpair
    obtain ⟨idx, raw⟩ := pr
    rcases List.pairwise_cons.mp hpair with ⟨hhead, htail⟩
    obtain ⟨ih1, ih2, c, hc1, hc2, hc3, hc4⟩ := ih htail
    rw [rerankLoop]
    split
    next =>
      refine ⟨le_trans ih1 (Nat.le_succ _), ih2, c, hc1, hc2, hc3, ?_⟩
      intro x hx
      rcases hc4 x hx with ⟨r, hr, hxr⟩
      exact ⟨r, List.mem_cons_of_mem _ hr, hxr⟩
    next item0 heq =>
      split
      next =>
        refine ⟨le_trans ih1 (Nat.le_succ _), ih2, c, hc1, hc2, hc3, ?_⟩
        intro x hx
        rcases hc4 x hx with ⟨r, hr, hxr⟩
        exact ⟨r, List.mem_cons_of_mem _ hr, hxr⟩
      next hkeep =>
        refine ⟨by simpa using Nat.succ_le_succ ih1, ?_,
          caps.sigmoid raw :: c, ?_, ?_, ?_, ?_⟩
        · intro it hit
          rcases List.mem_cons.mp hit with rfl | hrest
          · have hnot : ¬ ((rerankScored caps kws item0 raw).score < 2/5) := by
              intro hl
              exact hkeep (by simp [hl])
            exact not_lt.mp hnot
          · exact ih2 it hrest
        · refine List.pairwise_cons.mpr ⟨?_, hc1⟩
          intro x hx
          rcases hc4 x hx with ⟨r, hr, hxr⟩
          rw [hxr]
          exact hmono r.2 raw (hhead r hr)
        · simp [hc2]
        · intro p hp
          rw [List.zip_cons_cons] at hp
          rcases List.mem_cons.mp hp with rfl | hrest
          · exact rerankScored_score caps kws item0 raw
          · exact hc3 p hrest
        · intro x hx
          rcases List.mem_cons.mp hx with rfl | hrest
          · exact ⟨(idx, raw), List.mem_cons_self _ _, rfl⟩
          · rcases hc4 x hrest with ⟨r, hr, hxr⟩
            exact ⟨r, List.mem_cons_of_mem _ hr, hxr⟩

/-- RerankService.rerank output: at most top_k pairs, sorted
descending by raw score. -/
theorem rerankCall_sorted (caps : RetrievalCaps) (q : String)
    (texts : List String) (tk : Nat) :
    (rerankCall caps q texts tk).Pairwise (fun a b => b.2 ≤ a.2) ∧
    (rerankCall caps q texts tk).length ≤ tk := by
  unfold rerankCall
  split
  · simp
  · constructor
    · refine List.Pairwise.sublist (List.take_sublist _ _) ?_
      have hs := stableSortBy_pairwise
        (fun a b : Nat × ℚ => decide (b.2 ≤ a.2))
        (by
          intro x y
          rcases le_total y.2 x.2 with h | h
          · simp [h]
          · simp [h])
        (by
          intro x y z hxy hyz
          rw [decide_eq_true_eq] at hxy hyz ⊢
          exact le_trans hyz hxy)
        ((caps.predict q (texts.map (fun t => pySlice t 0 2000))).enum)
      exact hs.imp (fun h => of_decide_eq_true h)
    · exact List.length_take_le _ _

/-- C3 (amended).  When the reranker runs and the sigmoid calibration
is monotone, hybrid_search drops every candidate whose final score is
below 0.40 and returns at most topK hits; the hits are emitted in the
reranker's order — descending by calibrated (pre-penalty) score — with
each final score equal to its calibrated score or, when penalized, its
half; the list is NOT re-sorted by final score after the penalty, and
neither the original pre-rerank score nor recency is used to break
ties. -/
theorem hybrid_final_stage_spec (caps : RetrievalCaps) (tc : TimeCaps)
    (db : DB) (q : String) (kw0 : List String) (tk uid : Nat)
    (tr ft : Option String)
    (hrr : caps.rerankAvailable = true)
    (hmono : ∀ x y : ℚ, x ≤ y → caps.sigmoid x ≤ caps.sigmoid y) :
    (hybridSearch caps tc db q kw0 tk uid tr ft).length ≤ tk ∧
    (∀ it ∈ hybridSearch caps tc db q kw0 tk uid tr ft, 2/5 ≤ it.score) ∧
    ∃ c : List ℚ,
      c.Pairwise (fun a b => b ≤ a) ∧
      (hybridSearch caps tc db q kw0 tk uid tr ft).length = c.length ∧
      (∀ p ∈ (hybridSearch caps tc db q kw0 tk uid tr ft).zip c,
        p.1.score = p.2 ∨ p.1.score = p.2 / 2) := by
  suffices hms : ∀ (items : List Item) (kws : List String),
      (rankCandidates caps q kws tk items).length ≤ tk ∧
      (∀ it ∈ rankCandidates caps q kws tk items, 2/5 ≤ it.score) ∧
      ∃ c : List ℚ,
        c.Pairwise (fun a b => b ≤ a) ∧
        (rankCandidates caps q kws tk items).length = c.length ∧
        (∀ p ∈ (rankCandidates caps q kws tk items).zip c,
          p.1.score = p.2 ∨ p.1.score = p.2 / 2) by
    exact hms _ _
  intro items kws
  unfold rankCandidates
  by_cases hempty : items = []
  · rw [if_pos hempty]
    exact ⟨by simp, by simp, [], by simp, by simp, by simp⟩
  · rw [if_neg hempty, if_pos hrr]
    obtain ⟨hsort, hlen⟩ := rerankCall_sorted caps q (items.map candidateText) tk
    obtain ⟨h1, h2, c, hc1, hc2, hc3, _⟩ :=
      rerankLoop_spec caps kws items hmono _ hsort
    exact ⟨le_trans h1 hlen, h2, c, hc1, hc2, hc3⟩

/-- Witness for C3 (amended) at the concrete two-candidate run (the
identity calibration is monotone). -/
theorem hybrid_final_stage_spec_witness :
    (hybridSearch capsC3 tc0 dbC3 "tax query" ["tax"] 5 1 none
        none).length ≤ 5 ∧
    (∀ it ∈ hybridSearch capsC3 tc0 dbC3 "tax query" ["tax"] 5 1 none none,
      2/5 ≤ it.score) := by
  have h := hybrid_final_stage_spec capsC3 tc0 dbC3 "tax query" ["tax"]
    5 1 none none rfl (fun x y hxy => hxy)
  exact ⟨h.1, h.2.1⟩

end Memex
